import Mathlib

/-!
Verification of the control core of the hujingzhi single-node process
orchestrator (src/src/lib.rs): the housekeeping reconciliation loop, port
pool, process launcher, health prober, rate limiter, target validation and
the control surface, shallowly embedded as executable Lean functions.

External effects (binding a test socket, spawning a child, HTTP probes,
IPVS netlink calls, wall clocks) are passed in as oracle functions bundled
in a `World`; all state mutation is explicit state passing.  `HashMap`s and
`HashSet`s are modelled as association lists / lists, `VecDeque`s as lists
with the front at the head, and `Instant` / epoch seconds as `Nat`.
-/

deriving instance DecidableEq for Except

namespace Hjz

/-- Association-list lookup, modelling `HashMap::get`. -/
def alookup {κ α : Type} [BEq κ] (l : List (κ × α)) (k : κ) : Option α :=
  (l.find? (fun p => p.1 == k)).map (fun p => p.2)

/-- Association-list in-place update of the first binding of `k`,
modelling writing through `HashMap::entry`. -/
def aupdate {κ α : Type} [BEq κ] (l : List (κ × α)) (k : κ) (v : α) : List (κ × α) :=
  match l with
  | [] => []
  | (k', v') :: rest => if k' == k then (k', v) :: rest else (k', v') :: aupdate rest k v

/-- The `str::starts_with` on strings, as a character-prefix test (executable
in the kernel, unlike `String.startsWith`). -/
def starts_with (s pre : String) : Bool := pre.data.isPrefixOf s.data

/-- The `ProcessStatus` from lib.rs. -/
inductive ProcessStatus where
  | Starting
  | Running
  | Unhealthy
  | Sunsetting
  | Exited (exit_status : Int) (approx_time : Nat)
deriving DecidableEq, Repr

/-- Modelled from the spec (config.rs is not under src/): the `health`
field of a ProcessSpec, `\x7bservice: service_name, path: string\x7d`. -/
structure HealthCheckSpec where
  service : String
  path : String
deriving DecidableEq, Repr

/-- Modelled from the spec (config.rs is not under src/): a ProcessSpec with
the fields named in §3 of the spec; two ProcessSpecs compare equal iff all
fields are structurally equal (derived decidable equality; the `env` map is
modelled as an association list). -/
structure ProcessSpec where
  name : String
  command : List String
  cwd : Option String
  uid : Option String
  gid : Option String
  env : List (String × String)
  receives : List String
  health : Option HealthCheckSpec
deriving DecidableEq, Repr

/-- Modelled from the spec (config.rs is not under src/): a ServiceSpec
`\x7bname, on: "ip:port"\x7d`. -/
structure ServiceSpec where
  name : String
  «on» : String
deriving DecidableEq, Repr

/-- Modelled from the spec (config.rs is not under src/): the declarative
target, processes plus services. -/
structure HujingzhiTarget where
  processes : List ProcessSpec
  services : List ServiceSpec
deriving DecidableEq, Repr

/-- The `RunningProcessEntry` from lib.rs.  The tokio child handle is modelled
by its optional OS pid; `port_allocations` maps service name to port. -/
structure RunningProcessEntry where
  status : ProcessStatus
  approx_start : Nat
  approx_conn_count : Int
  pid : Option Nat
  name : String
  port_allocations : List (String × Nat)
deriving DecidableEq, Repr

/-- The `ProcessSet.running_versions` from lib.rs: older versions at lower
indices, the most recent at the tail. -/
abbrev ProcessSet := List (ProcessSpec × RunningProcessEntry)

/-- Modelled from the spec (ipvs.rs is not under src/): one real server of
an IPVS virtual service as read by lib.rs (`address`, `port`,
`active_conn`, `weight`). -/
structure IpvsServer where
  address : String
  port : Nat
  active_conn : Int
  weight : Int
deriving DecidableEq, Repr

/-- Modelled from the spec (ipvs.rs is not under src/): one IPVS virtual
service as read by lib.rs (`local_address`, `servers`). -/
structure IpvsService where
  local_address : String
  servers : List IpvsServer
deriving DecidableEq, Repr

/-- Modelled from the spec (ipvs.rs is not under src/): the IPVS snapshot;
lib.rs only iterates `services.values()`, so the map is modelled as the
list of its values. -/
structure IpvsState where
  services : List IpvsService
deriving DecidableEq, Repr

/-- The `LogEvent` from lib.rs. -/
inductive LogEvent where
  | Warning (msg : String)
  | Error (msg : String)
  | CreateIpvsService (spec : ServiceSpec)
  | LaunchProcess (name : String) (process_name : String)
      (port_allocations : List (String × Nat))
  | StatusChange (name : String) (status : ProcessStatus)
  | WeightChange (service : String) (port : Nat) (weight : Int)
deriving DecidableEq, Repr

/-- The `LOG_MAX_SIZE` from lib.rs. -/
def LOG_MAX_SIZE : Nat := 1000

/-- The `log_event` from lib.rs: push at the back, evict from the front while
the length exceeds `LOG_MAX_SIZE`. -/
def log_event (events : List LogEvent) (event : LogEvent) : List LogEvent :=
  let events := events ++ [event]
  events.drop (events.length - LOG_MAX_SIZE)

/-- The `rate_limit` from lib.rs.  The global `RATE_LIMITING` table is the
explicit `m` argument (key to the `Instant` stored for it, in seconds);
`now` is the current instant.  Returns the gate's verdict and the updated
table.  `Instant::duration_since` saturates at zero, hence truncated `Nat`
subtraction. -/
def rate_limit (m : List (String × Nat)) (key : String) (duration : Nat) (now : Nat) :
    Bool × List (String × Nat) :=
  match alookup m key with
  | none =>
    let m' := (key, now) :: m
    if now - now > duration then (true, aupdate m' key now) else (false, m')
  | some last =>
    if now - last > duration then (true, aupdate m key now) else (false, m)

/-- Outcome of a transcribed Rust code path: normal value, `anyhow` error,
non-terminating loop, or `assert!`/panic. -/
inductive Outcome (α : Type) where
  | ok (a : α)
  | err (msg : String)
  | spin
  | panicked
deriving DecidableEq, Repr

/-- The result of one HTTP GET as seen by `health_check`: a response with a
status code, a connection-refused-class transport error (`e.is_connect()`),
or any other transport error. -/
inductive HttpOutcome where
  | success (status : Nat)
  | connectError
  | otherError (msg : String)
deriving DecidableEq, Repr

/-- The URL string built by `health_check` in lib.rs:
`format!("http://localhost:\x7b\x7d\x7b\x7d\x7b\x7d", service_port, maybe_slash, path)`
with `maybe_slash` synthesized when the path lacks a leading slash. -/
def health_url (port : Nat) (path : String) : String :=
  "http://localhost:" ++ toString port ++ (if starts_with path "/" then "" else "/") ++ path

/-- The `health_check` from lib.rs.  `http` is the oracle for `reqwest::get`,
keyed by the requested URL. -/
def health_check (process_spec : ProcessSpec) (entry : RunningProcessEntry)
    (http : String → HttpOutcome) : Except String Bool :=
  match process_spec.health with
  | none => .ok true
  | some health_check_spec =>
    match alookup entry.port_allocations health_check_spec.service with
    | none => .error ("BUG: No port allocated for service " ++ health_check_spec.service)
    | some service_port =>
      match http (health_url service_port health_check_spec.path) with
      | .success status => .ok (decide (200 ≤ status ∧ status < 300))
      | .connectError => .ok false
      | .otherError m => .error m

/-- The mutable port-pool slice of `SyncedGlobalState`:
`free_loopback_ports` (front at the head) and `allocated_ports`. -/
structure PortsSt where
  free : List Nat
  alloc : List Nat
deriving DecidableEq, Repr

/-- The `allocate_port` from lib.rs.  `testPort` is the oracle for the
`test_port` bind probe: `some true` binds, `some false` is address-in-use,
`none` is any other bind error.  The Rust `loop` rotates in-use ports to
the back of the deque and retries forever, so it is given `fuel`;
exhausting the fuel is `Outcome.spin`.  Returns the outcome together with
the pool state at exit and the events logged. -/
def allocate_port (fuel : Nat) (ps : PortsSt) (testPort : Nat → Option Bool) :
    Outcome Nat × PortsSt × List LogEvent :=
  match fuel with
  | 0 => (.spin, ps, [])
  | fuel + 1 =>
    match ps.free with
    | [] => (.err "No more free loopback ports", ps, [])
    | port :: rest =>
      match testPort port with
      | none => (.err "Failed to bind socket", { ps with free := rest }, [])
      | some false =>
        let ev := LogEvent.Warning ("Port " ++ toString port ++ " is in use, skipping")
        match allocate_port fuel { ps with free := rest ++ [port] } testPort with
        | (o, ps', evs) => (o, ps', ev :: evs)
      | some true =>
        if port ∈ ps.alloc then (.panicked, { ps with free := rest }, [])
        else (.ok port, { free := rest, alloc := port :: ps.alloc }, [])

/-- The `release_port` from lib.rs: asserts the port is allocated, removes it
from the allocated set and pushes it to the front of the free deque.
`none` models the `assert!` panic. -/
def release_port (ps : PortsSt) (port : Nat) : Option PortsSt :=
  if port ∈ ps.alloc then some { free := port :: ps.free, alloc := ps.alloc.erase port }
  else none

/-- The release loop in `launch_process`'s allocation-failure path:
release every port in the list; the Bool is false when a `release_port`
assertion fired (pool state at the panic is returned alongside). -/
def release_ports (ps : PortsSt) : List Nat → Bool × PortsSt
  | [] => (true, ps)
  | p :: rest =>
    match release_port ps p with
    | none => (false, ps)
    | some ps' => release_ports ps' rest

/-- The oracle bundle for one housekeeping tick: every external effect the
reconciler performs, as pure functions. -/
structure World where
  /-- The `ipvs::get_ipvs_state()`. -/
  getIpvs : Except String IpvsState
  /-- The `ipvs::create_service` (errors from the preceding delete are
  suppressed by the source and unobservable). -/
  createService : ServiceSpec → Except String Unit
  /-- The `test_port` bind probe (see `allocate_port`). -/
  testPort : Nat → Option Bool
  /-- The `tokio::process::Command::spawn`, keyed by process name; `ok` carries
  the child's optional OS pid. -/
  spawn : String → Except String (Option Nat)
  /-- The generated `<word>-<counter>-<pid>` unique entry name, keyed by
  process name. -/
  entryName : String → String
  /-- The `Instant::now()` in seconds. -/
  now : Nat
  /-- The verdict of the global `rate_limit` gate for a key this tick. -/
  rl : String → Bool
  /-- The `reqwest::get`, keyed by URL. -/
  http : String → HttpOutcome
  /-- The `Child::try_wait`, keyed by entry name: `ok none` still running,
  `ok (some code?)` exited with `code?` the optional exit code. -/
  tryWait : String → Except String (Option (Option Int))
  /-- The `SystemTime::now().duration_since(UNIX_EPOCH)` in seconds. -/
  epochNow : Except String Nat
  /-- The `ipvs::set_loopback_weight service port weight`. -/
  setWeight : String → Nat → Int → Except String Unit
  /-- Fuel for the `allocate_port` retry loop. -/
  fuel : Nat

/-- The port-allocation loop at the top of `launch_process`: one port per
name in `receives`, accumulating the port map in `acc`.  On an allocation
error the source logs an `Error` event, releases every port allocated so
far in this call, and returns the error. -/
def alloc_ports_loop (w : World) (names : List String) (ps : PortsSt)
    (acc : List (String × Nat)) :
    Outcome (List (String × Nat)) × PortsSt × List LogEvent :=
  match names with
  | [] => (.ok acc, ps, [])
  | service_name :: rest =>
    match allocate_port w.fuel ps w.testPort with
    | (.ok port, ps1, ev1) =>
      match alloc_ports_loop w rest ps1 (acc ++ [(service_name, port)]) with
      | (o, ps2, ev2) => (o, ps2, ev1 ++ ev2)
    | (.err m, ps1, ev1) =>
      let ev := LogEvent.Error ("Failed to allocate ports when launching process: " ++ m)
      match release_ports ps1 (acc.map (fun q => q.2)) with
      | (true, ps2) => (.err m, ps2, ev1 ++ [ev])
      | (false, ps2) => (.panicked, ps2, ev1 ++ [ev])
    | (.spin, ps1, ev1) => (.spin, ps1, ev1)
    | (.panicked, ps1, ev1) => (.panicked, ps1, ev1)

/-- The `launch_process` from lib.rs.  Allocates one port per `receives` entry,
spawns the child, wraps it in a `Starting` entry and emits `LaunchProcess`.
Note the source releases ports on the allocation-failure path only; a
spawn failure returns through `?` without releasing. -/
def launch_process (w : World) (ps : PortsSt) (process_spec : ProcessSpec) :
    Outcome RunningProcessEntry × PortsSt × List LogEvent :=
  match alloc_ports_loop w process_spec.receives ps [] with
  | (.ok port_allocations, ps1, ev1) =>
    match w.spawn process_spec.name with
    | .error m => (.err m, ps1, ev1)
    | .ok pid =>
      let entry : RunningProcessEntry :=
        { status := .Starting
          approx_start := w.now
          approx_conn_count := 0
          pid := pid
          name := w.entryName process_spec.name
          port_allocations := port_allocations }
      (.ok entry, ps1,
        ev1 ++ [LogEvent.LaunchProcess entry.name process_spec.name port_allocations])
  | (.err m, ps1, ev1) => (.err m, ps1, ev1)
  | (.spin, ps1, ev1) => (.spin, ps1, ev1)
  | (.panicked, ps1, ev1) => (.panicked, ps1, ev1)

/-- The `SyncedGlobalState` from lib.rs (all reconciler-owned mutable state
behind the state lock). -/
structure SyncedGlobalState where
  target_text : String
  target : HujingzhiTarget
  processed_services : List String
  processes_by_name : List (String × ProcessSet)
  free_loopback_ports : List Nat
  allocated_ports : List Nat
  last_ipvs_state : Option IpvsState
deriving DecidableEq, Repr

/-- Housekeeping step 1: make sure a ProcessSet exists for every process
name in the target (`processes_by_name.insert` guarded by
`contains_key`). -/
def ensure_process_sets (procs : List ProcessSpec) (pbn : List (String × ProcessSet)) :
    List (String × ProcessSet) :=
  match procs with
  | [] => pbn
  | p :: rest =>
    ensure_process_sets rest
      (if (alookup pbn p.name).isSome then pbn else pbn ++ [(p.name, [])])

/-- Housekeeping step 3: for every target service not yet in
`processed_services`, emit `CreateIpvsService`, delete-then-create the IPVS
service (delete errors suppressed), and mark it processed after a
successful create.  A create error aborts the pass through `?`. -/
def create_services (w : World) (services : List ServiceSpec) (processed : List String) :
    Outcome Unit × List String × List LogEvent :=
  match services with
  | [] => (.ok (), processed, [])
  | service :: rest =>
    if service.name ∈ processed then create_services w rest processed
    else
      let ev := LogEvent.CreateIpvsService service
      match w.createService service with
      | .error m => (.err m, processed, [ev])
      | .ok () =>
        match create_services w rest (processed ++ [service.name]) with
        | (o, processed', evs) => (o, processed', ev :: evs)

/-- Whether a list of names contains a duplicate, in the sense of the
`HashSet` insert loop of `validate_target` / the `specs` map assertion:
the first name equal to an earlier one. -/
def firstDup (names : List String) (seen : List String) : Option String :=
  match names with
  | [] => none
  | n :: rest => if n ∈ seen then some n else firstDup rest (n :: seen)

/-- The ensure-current-version launch arm: launch the target spec and
append it on success; on a launch error log
`Failed to launch process <name>: <e>` and leave the set unchanged
(`continue`). -/
def ensure_launch (w : World) (process_name : String) (target_spec : ProcessSpec)
    (pset : ProcessSet) (ps : PortsSt) :
    Outcome Unit × ProcessSet × PortsSt × List LogEvent :=
  match launch_process w ps target_spec with
  | (.ok entry, ps', ev) => (.ok (), pset ++ [(target_spec, entry)], ps', ev)
  | (.err m, ps', ev) =>
    (.ok (), pset, ps',
      ev ++ [LogEvent.Error ("Failed to launch process " ++ process_name ++ ": " ++ m)])
  | (.spin, ps', ev) => (.spin, pset, ps', ev)
  | (.panicked, ps', ev) => (.panicked, pset, ps', ev)

/-- The per-name ensure-current-version match of housekeeping: no target
spec launches nothing; an up-to-date tail (spec structurally equal to the
target spec) launches nothing; otherwise launch and append. -/
def ensure_current (w : World) (process_name : String) (target_spec : Option ProcessSpec)
    (pset : ProcessSet) (ps : PortsSt) :
    Outcome Unit × ProcessSet × PortsSt × List LogEvent :=
  match target_spec with
  | none => (.ok (), pset, ps, [])
  | some ts =>
    match pset.getLast? with
    | some (running_version, _) =>
      if running_version = ts then (.ok (), pset, ps, [])
      else ensure_launch w process_name ts pset ps
    | none => ensure_launch w process_name ts pset ps

/-- Housekeeping's upkeep loop over every process set (ensure current
version), threading the port pool. -/
def ensure_all (w : World) (specs : List ProcessSpec) :
    List (String × ProcessSet) → PortsSt →
    Outcome Unit × List (String × ProcessSet) × PortsSt × List LogEvent
  | [], ps => (.ok (), [], ps, [])
  | (name, pset) :: rest, ps =>
    match ensure_current w name (specs.find? (fun s => s.name == name)) pset ps with
    | (.ok (), pset', ps', ev) =>
      match ensure_all w specs rest ps' with
      | (o, rest', ps'', ev') => (o, (name, pset') :: rest', ps'', ev ++ ev')
    | (.err m, pset', ps', ev) => (.err m, (name, pset') :: rest, ps', ev)
    | (.spin, pset', ps', ev) => (.spin, (name, pset') :: rest, ps', ev)
    | (.panicked, pset', ps', ev) => (.panicked, (name, pset') :: rest, ps', ev)

/-- The `LoopbackInfo` from housekeeping: per-loopback-port connection count
and weight from the IPVS snapshot. -/
structure LoopbackInfo where
  connections : Int
  weight : Int
deriving DecidableEq, Repr

/-- The real servers housekeeping's loopback_info loop actually visits:
servers with address `127.0.0.1` under virtual services whose IP starts
with `127.0.0.` (everything else is skipped), in iteration order. -/
def loopbackEntries (services : List IpvsService) : List IpvsServer :=
  match services with
  | [] => []
  | service :: rest =>
    if starts_with service.local_address "127.0.0." then
      service.servers.filter (fun server => server.address == "127.0.0.1")
        ++ loopbackEntries rest
    else loopbackEntries rest

/-- The loopback_info map build: insert each visited server keyed by its
port; `none` models the `assert!(!loopback_info.contains_key(&server.port))`
panic on a duplicate port. -/
def build_loopback_info (servers : List IpvsServer) (acc : List (Nat × LoopbackInfo)) :
    Option (List (Nat × LoopbackInfo)) :=
  match servers with
  | [] => some acc
  | server :: rest =>
    if (alookup acc server.port).isSome then none
    else build_loopback_info rest
      (acc ++ [(server.port, { connections := server.active_conn, weight := server.weight })])

/-- Housekeeping's update-connection-counts loop: each entry's
`approx_conn_count` becomes the sum of `loopback_info[port].connections`
over its ports, missing ports counting zero. -/
def set_conn_counts (linfo : List (Nat × LoopbackInfo)) (pset : ProcessSet) : ProcessSet :=
  pset.map (fun pe =>
    (pe.1, { pe.2 with approx_conn_count :=
      (pe.2.port_allocations.map (fun q =>
        match alookup linfo q.2 with
        | some info => info.connections
        | none => 0)).sum }))

/-- Housekeeping's health-check loop over a set: every `Running` entry
whose `health:<name>` rate-limit gate is open is probed; a probe failure
demotes it to `Unhealthy` (with a `StatusChange`); a probe transport error
aborts the pass through `?`, leaving earlier entries already updated. -/
def demote_loop (w : World) : ProcessSet → Outcome Unit × ProcessSet × List LogEvent
  | [] => (.ok (), [], [])
  | (spec, entry) :: rest =>
    if entry.status = .Running ∧ w.rl ("health:" ++ entry.name) = true then
      match health_check spec entry w.http with
      | .error m => (.err m, (spec, entry) :: rest, [])
      | .ok healthy =>
        let (entry', ev) :=
          if healthy then (entry, ([] : List LogEvent))
          else ({ entry with status := .Unhealthy },
            [LogEvent.StatusChange entry.name .Unhealthy])
        match demote_loop w rest with
        | (o, rest', ev') => (o, (spec, entry') :: rest', ev ++ ev')
    else
      match demote_loop w rest with
      | (o, rest', ev') => (o, (spec, entry) :: rest', ev')

/-- Housekeeping's start-up check: for the tail entry only, if `Starting`
and the `start:<name>` gate is open, probe; on success promote to
`Running` (with a `StatusChange`); a transport error aborts through `?`. -/
def promote_tail (w : World) (pset : ProcessSet) :
    Outcome Unit × ProcessSet × List LogEvent :=
  match pset.getLast? with
  | none => (.ok (), pset, [])
  | some (spec, entry) =>
    if entry.status = .Starting ∧ w.rl ("start:" ++ entry.name) = true then
      match health_check spec entry w.http with
      | .error m => (.err m, pset, [])
      | .ok true =>
        (.ok (), pset.dropLast ++ [(spec, { entry with status := .Running })],
          [LogEvent.StatusChange entry.name .Running])
      | .ok false => (.ok (), pset, [])
    else (.ok (), pset, [])

/-- Housekeeping's sunset walk over the reversed set (tail first): `flag`
is `have_newer_running_version`.  Each `Running` entry seen with the flag
set transitions to `Sunsetting` (emitting a `StatusChange` and a SIGTERM
to its pid); the first `Running` seen sets the flag.  Returns the walked
(still reversed) list, the events, and the `(name, pid)` SIGTERM
deliveries. -/
def sunset_rev (flag : Bool) :
    ProcessSet → ProcessSet × List LogEvent × List (String × Option Nat)
  | [] => ([], [], [])
  | (spec, entry) :: rest =>
    if entry.status = .Running then
      if flag then
        let (rest', ev, sig) := sunset_rev true rest
        ((spec, { entry with status := .Sunsetting }) :: rest',
          LogEvent.StatusChange entry.name .Sunsetting :: ev,
          (entry.name, entry.pid) :: sig)
      else
        let (rest', ev, sig) := sunset_rev true rest
        ((spec, entry) :: rest', ev, sig)
    else
      let (rest', ev, sig) := sunset_rev flag rest
      ((spec, entry) :: rest', ev, sig)

/-- Housekeeping's sunset step on a set in its stored order: walk
tail-to-head and sunset every `Running` older than the newest `Running`. -/
def sunset_pass (pset : ProcessSet) :
    ProcessSet × List LogEvent × List (String × Option Nat) :=
  let (r, ev, sig) := sunset_rev false pset.reverse
  (r.reverse, ev, sig)

/-- Housekeeping's reap loop: `try_wait` every entry; an exited child
transitions the entry to `Exited` with its exit code (unknown code `-1`)
and the epoch time (a clock error aborts through `?` before the event). -/
def reap_loop (w : World) : ProcessSet → Outcome Unit × ProcessSet × List LogEvent
  | [] => (.ok (), [], [])
  | (spec, entry) :: rest =>
    match w.tryWait entry.name with
    | .error m => (.err m, (spec, entry) :: rest, [])
    | .ok none =>
      match reap_loop w rest with
      | (o, rest', ev') => (o, (spec, entry) :: rest', ev')
    | .ok (some code) =>
      match w.epochNow with
      | .error m => (.err m, (spec, entry) :: rest, [])
      | .ok t =>
        let status := ProcessStatus.Exited (code.getD (-1)) t
        match reap_loop w rest with
        | (o, rest', ev') =>
          (o, (spec, { entry with status := status }) :: rest',
            LogEvent.StatusChange entry.name status :: ev')

/-- The whole update-statuses block of housekeeping for one process set:
connection counts, health demotions, start-up promotion, sunsetting,
reaping, in source order. -/
def update_statuses_set (w : World) (linfo : List (Nat × LoopbackInfo)) (pset : ProcessSet) :
    Outcome Unit × ProcessSet × List LogEvent × List (String × Option Nat) :=
  let p1 := set_conn_counts linfo pset
  match demote_loop w p1 with
  | (.ok (), p2, ev2) =>
    match promote_tail w p2 with
    | (.ok (), p3, ev3) =>
      let (p4, ev4, sig) := sunset_pass p3
      match reap_loop w p4 with
      | (o, p5, ev5) => (o, p5, ev2 ++ ev3 ++ ev4 ++ ev5, sig)
    | (.err m, p3, ev3) => (.err m, p3, ev2 ++ ev3, [])
    | (.spin, p3, ev3) => (.spin, p3, ev2 ++ ev3, [])
    | (.panicked, p3, ev3) => (.panicked, p3, ev2 ++ ev3, [])
  | (.err m, p2, ev2) => (.err m, p2, ev2, [])
  | (.spin, p2, ev2) => (.spin, p2, ev2, [])
  | (.panicked, p2, ev2) => (.panicked, p2, ev2, [])

/-- The update-statuses block over every process set.  An abort leaves the
sets already visited updated and the rest untouched. -/
def update_statuses_all (w : World) (linfo : List (Nat × LoopbackInfo)) :
    List (String × ProcessSet) →
    Outcome Unit × List (String × ProcessSet) × List LogEvent × List (String × Option Nat)
  | [] => (.ok (), [], [], [])
  | (name, pset) :: rest =>
    match update_statuses_set w linfo pset with
    | (.ok (), pset', ev, sig) =>
      match update_statuses_all w linfo rest with
      | (o, rest', ev', sig') => (o, (name, pset') :: rest', ev ++ ev', sig ++ sig')
    | (.err m, pset', ev, sig) => (.err m, (name, pset') :: rest, ev, sig)
    | (.spin, pset', ev, sig) => (.spin, (name, pset') :: rest, ev, sig)
    | (.panicked, pset', ev, sig) => (.panicked, (name, pset') :: rest, ev, sig)

/-- Whether a status is `Exited`. -/
def isExited : ProcessStatus → Bool
  | .Exited _ _ => true
  | _ => false

/-- Housekeeping's collect step on one set: drop entries that have
exited (`retain`); ports are not touched. -/
def collect_exited (pset : ProcessSet) : ProcessSet :=
  pset.filter (fun pe => !isExited pe.2.status)

/-- The collect step over every process set. -/
def collect_all (pbn : List (String × ProcessSet)) : List (String × ProcessSet) :=
  pbn.map (fun p => (p.1, collect_exited p.2))

/-- The `loopback_info.get(port).map(|info| info.weight).unwrap_or(0)`: the
snapshot weight for a port, absent treated as 0. -/
def linfo_weight (linfo : List (Nat × LoopbackInfo)) (port : Nat) : Int :=
  match alookup linfo port with
  | some info => info.weight
  | none => 0

/-- The weight-steering loop over one entry's port map: for each
`(service_name, port)`, find the service in the target (a missing one is a
bug-class error aborting through `?`), compare the snapshot weight for the
port (absent is 0) to the target weight, and when they differ emit
`WeightChange` and call `set_loopback_weight` (recorded in the returned
call list; a call error aborts after the event). -/
def weight_call_loop (w : World) (services : List ServiceSpec)
    (linfo : List (Nat × LoopbackInfo)) (target_weight : Int) :
    List (String × Nat) → Outcome Unit × List LogEvent × List (String × Nat × Int)
  | [] => (.ok (), [], [])
  | (service_name, port) :: rest =>
    match services.find? (fun svc => svc.name == service_name) with
    | none => (.err ("BUG: Service " ++ service_name ++ " not found"), [], [])
    | some svc =>
      if linfo_weight linfo port ≠ target_weight then
        let ev := LogEvent.WeightChange svc.name port target_weight
        match w.setWeight svc.name port target_weight with
        | .error m => (.err m, [ev], [(svc.name, port, target_weight)])
        | .ok () =>
          match weight_call_loop w services linfo target_weight rest with
          | (o, evs, calls) => (o, ev :: evs, (svc.name, port, target_weight) :: calls)
      else weight_call_loop w services linfo target_weight rest

/-- Weight steering for one process set: every surviving entry gets target
weight 1 if `Running`, otherwise 0. -/
def adjust_weights_set (w : World) (services : List ServiceSpec)
    (linfo : List (Nat × LoopbackInfo)) :
    ProcessSet → Outcome Unit × List LogEvent × List (String × Nat × Int)
  | [] => (.ok (), [], [])
  | (_, entry) :: rest =>
    let target_weight : Int := if entry.status = .Running then 1 else 0
    match weight_call_loop w services linfo target_weight entry.port_allocations with
    | (.ok (), evs, calls) =>
      match adjust_weights_set w services linfo rest with
      | (o, evs', calls') => (o, evs ++ evs', calls ++ calls')
    | (.err m, evs, calls) => (.err m, evs, calls)
    | (.spin, evs, calls) => (.spin, evs, calls)
    | (.panicked, evs, calls) => (.panicked, evs, calls)

/-- Weight steering over every process set. -/
def adjust_weights_all (w : World) (services : List ServiceSpec)
    (linfo : List (Nat × LoopbackInfo)) :
    List (String × ProcessSet) → Outcome Unit × List LogEvent × List (String × Nat × Int)
  | [] => (.ok (), [], [])
  | (_, pset) :: rest =>
    match adjust_weights_set w services linfo pset with
    | (.ok (), evs, calls) =>
      match adjust_weights_all w services linfo rest with
      | (o, evs', calls') => (o, evs ++ evs', calls ++ calls')
    | (.err m, evs, calls) => (.err m, evs, calls)
    | (.spin, evs, calls) => (.spin, evs, calls)
    | (.panicked, evs, calls) => (.panicked, evs, calls)

/-- The result of one housekeeping pass: the outcome, the synced state as
left behind (partial mutations persist on an abort, as the source mutates
in place under the lock), the events logged, and the SIGTERMs sent. -/
structure HkOut where
  outcome : Outcome Unit
  state : SyncedGlobalState
  events : List LogEvent
  sigterms : List (String × Option Nat)
deriving DecidableEq, Repr

/-- The `housekeeping` from lib.rs: ensure process sets, snapshot IPVS, create
services, build the spec map (asserting unique process names), ensure
current versions, build loopback info (asserting unique loopback ports),
update statuses, collect exited entries, steer weights. -/
def housekeeping (w : World) (st : SyncedGlobalState) : HkOut :=
  let pbn1 := ensure_process_sets st.target.processes st.processes_by_name
  match w.getIpvs with
  | .error m => ⟨.err m, { st with processes_by_name := pbn1 }, [], []⟩
  | .ok ipvs =>
    let st1 := { st with
      processes_by_name := pbn1
      last_ipvs_state := some ipvs }
    match create_services w st.target.services st.processed_services with
    | (.ok (), processed', ev1) =>
      let st2 := { st1 with processed_services := processed' }
      if (firstDup (st.target.processes.map (fun p => p.name)) []).isSome then
        ⟨.panicked, st2, ev1, []⟩
      else
        match ensure_all w st.target.processes pbn1
            ⟨st.free_loopback_ports, st.allocated_ports⟩ with
        | (.ok (), pbn2, ps2, ev2) =>
          let st3 := { st2 with
            processes_by_name := pbn2
            free_loopback_ports := ps2.free
            allocated_ports := ps2.alloc }
          match build_loopback_info (loopbackEntries ipvs.services) [] with
          | none => ⟨.panicked, st3, ev1 ++ ev2, []⟩
          | some linfo =>
            match update_statuses_all w linfo pbn2 with
            | (.ok (), pbn3, ev3, sig) =>
              let pbn4 := collect_all pbn3
              let st4 := { st3 with processes_by_name := pbn4 }
              match adjust_weights_all w st.target.services linfo pbn4 with
              | (o, ev4, _) => ⟨o, st4, ev1 ++ ev2 ++ ev3 ++ ev4, sig⟩
            | (.err m, pbn3, ev3, sig) =>
              ⟨.err m, { st3 with processes_by_name := pbn3 }, ev1 ++ ev2 ++ ev3, sig⟩
            | (.spin, pbn3, ev3, sig) =>
              ⟨.spin, { st3 with processes_by_name := pbn3 }, ev1 ++ ev2 ++ ev3, sig⟩
            | (.panicked, pbn3, ev3, sig) =>
              ⟨.panicked, { st3 with processes_by_name := pbn3 }, ev1 ++ ev2 ++ ev3, sig⟩
        | (.err m, pbn2, ps2, ev2) =>
          ⟨.err m, { st2 with
            processes_by_name := pbn2
            free_loopback_ports := ps2.free
            allocated_ports := ps2.alloc }, ev1 ++ ev2, []⟩
        | (.spin, pbn2, ps2, ev2) =>
          ⟨.spin, { st2 with
            processes_by_name := pbn2
            free_loopback_ports := ps2.free
            allocated_ports := ps2.alloc }, ev1 ++ ev2, []⟩
        | (.panicked, pbn2, ps2, ev2) =>
          ⟨.panicked, { st2 with
            processes_by_name := pbn2
            free_loopback_ports := ps2.free
            allocated_ports := ps2.alloc }, ev1 ++ ev2, []⟩
    | (.err m, processed', ev1) =>
      ⟨.err m, { st1 with processed_services := processed' }, ev1, []⟩
    | (.spin, processed', ev1) =>
      ⟨.spin, { st1 with processed_services := processed' }, ev1, []⟩
    | (.panicked, processed', ev1) =>
      ⟨.panicked, { st1 with processed_services := processed' }, ev1, []⟩

/-- Splitting a character list on `:`, for `parse_host_and_port`. -/
def split_colon (cs : List Char) : List (List Char) :=
  match cs with
  | [] => [[]]
  | c :: rest =>
    let segs := split_colon rest
    if c = ':' then [] :: segs
    else
      match segs with
      | [] => [[c]]
      | seg :: more => (c :: seg) :: more

/-- Decimal digits to a number, `none` on a non-digit or the empty list. -/
def parse_decimal (cs : List Char) (acc : Nat) : Option Nat :=
  match cs with
  | [] => some acc
  | c :: rest =>
    if c.isDigit then parse_decimal rest (acc * 10 + (c.toNat - '0'.toNat))
    else none

/-- Modelled from the spec (ipvs.rs is not under src/):
`ipvs::parse_host_and_port` splits an `"ip:port"` string into host and
port. -/
def parse_host_and_port (s : String) : Except String (String × Nat) :=
  match split_colon s.data with
  | [host, port] =>
    match (if port.isEmpty then none else parse_decimal port 0) with
    | some p => .ok (String.mk host, p)
    | none => .error ("Invalid port in " ++ s)
  | _ => .error ("Invalid host and port " ++ s)

/-- The `SERVICE_IP_PREFIX` from lib.rs. -/
def SERVICE_IP_PREFIX : String := "127.0.0."

/-- The service IP checks at the end of `validate_target`. -/
def validate_service_ips (services : List ServiceSpec) : Except String Unit :=
  match services with
  | [] => .ok ()
  | service :: rest =>
    match parse_host_and_port service.on with
    | .error m => .error m
    | .ok (host, _) =>
      if starts_with host SERVICE_IP_PREFIX then validate_service_ips rest
      else .error ("Service " ++ service.name ++ " has invalid IP \"" ++ host
        ++ "\" -- must start with \"" ++ SERVICE_IP_PREFIX ++ "\"")

/-- The `validate_target` from lib.rs: process names unique, service names
unique (`Duplicate name <n> in <field>` on the first repeat), then every
service IP must start with `127.0.0.`. -/
def validate_target (target : HujingzhiTarget) : Except String Unit :=
  match firstDup (target.processes.map (fun p => p.name)) [] with
  | some n => .error ("Duplicate name " ++ n ++ " in processes")
  | none =>
    match firstDup (target.services.map (fun s => s.name)) [] with
    | some n => .error ("Duplicate name " ++ n ++ " in services")
    | none => validate_service_ips target.services

/-- The `ClientResponse` from lib.rs. -/
inductive ClientResponse where
  | Pong
  | Success (message : Option String)
  | Target (target : String)
  | Error (message : String)
  | Status (events : List LogEvent) (status : String) (ipvs_state : Option IpvsState)
deriving DecidableEq, Repr

/-- The `SetTarget` arm of `handle_rest_request`, composed with the warp
layer that turns a `?`-propagated error into `ClientResponse::Error`.
`parse` stands for `serde_yaml::from_str(&target_text)`, `applySecrets`
for `target.apply_secrets(&self.secrets)`, and `writeFile` for
`std::fs::write(DEFAULT_TARGET_PATH, &target_text)`.  Returns the wire
response, the synced state afterwards, and whether the target file was
written to disk. -/
def set_target (st : SyncedGlobalState) (target_text : String)
    (parse : Except String HujingzhiTarget)
    (applySecrets : HujingzhiTarget → Except String HujingzhiTarget)
    (writeFile : Except String Unit) :
    ClientResponse × SyncedGlobalState × Bool :=
  match parse with
  | .error m => (.Error m, st, false)
  | .ok target0 =>
    match applySecrets target0 with
    | .error m => (.Error m, st, false)
    | .ok target =>
      match validate_target target with
      | .error m => (.Error m, st, false)
      | .ok () =>
        match writeFile with
        | .error m => (.Error m, st, false)
        | .ok () =>
          let changed := st.target ≠ target
          (.Success (some (if changed then "Target updated" else "(no changes made)")),
            { st with target_text := target_text, target := target }, true)

/-! ### Concrete fixtures used by counterexamples and witnesses -/

/-- A world in which every port bind probe succeeds and every spawn fails
(the command is missing), as in scenario S6 of the spec. -/
def spawnFailWorld : World where
  getIpvs := .error "unused"
  createService := fun _ => .ok ()
  testPort := fun _ => some true
  spawn := fun _ => .error "No such file or directory (os error 2)"
  entryName := fun n => n ++ "-0-1"
  now := 0
  rl := fun _ => false
  http := fun _ => .connectError
  tryWait := fun _ => .ok none
  epochNow := .ok 0
  setWeight := fun _ _ _ => .ok ()
  fuel := 10

/-- A process spec with one received service and a missing command. -/
def c2Spec : ProcessSpec where
  name := "p"
  command := ["/bin/nope"]
  cwd := none
  uid := none
  gid := none
  env := []
  receives := ["s"]
  health := none

/-- A process spec whose health check probes service `s` at path `h`
(no leading slash). -/
def c7Spec : ProcessSpec where
  name := "p"
  command := ["/bin/svc"]
  cwd := none
  uid := none
  gid := none
  env := []
  receives := ["s"]
  health := some { service := "s", path := "h" }

/-- An entry holding port 20000 for service `s`. -/
def c7Entry : RunningProcessEntry where
  status := .Starting
  approx_start := 0
  approx_conn_count := 0
  pid := some 1
  name := "e"
  port_allocations := [("s", 20000)]

/-- An HTTP oracle that answers 200 only at `http://127.0.0.1:20000/h` and
connection-refused everywhere else. -/
def http127 : String → HttpOutcome := fun url =>
  if url == "http://127.0.0.1:20000/h" then .success 200 else .connectError

/-- An HTTP oracle that answers 200 only at `http://localhost:20000/h` and
connection-refused everywhere else. -/
def httpLocal : String → HttpOutcome := fun url =>
  if url == "http://localhost:20000/h" then .success 200 else .connectError

/-! ### C6 — rate limiter -/

/-- C6: the first call of the rate-limit gate for a key returns `false`
and stores `now` for the key; a subsequent call returns `true` iff the
stored instant is strictly older than the interval, advancing the stored
instant exactly when it returns `true`. -/
theorem claim_C6 (m : List (String × Nat)) (key : String) (d now : Nat) :
    (alookup m key = none → rate_limit m key d now = (false, (key, now) :: m)) ∧
    (∀ t, alookup m key = some t →
      ((rate_limit m key d now).1 = true ↔ now - t > d) ∧
      (now - t > d → rate_limit m key d now = (true, aupdate m key now)) ∧
      (¬ now - t > d → rate_limit m key d now = (false, m))) := by
  constructor
  · intro h
    simp [rate_limit, h]
  · intro t ht
    refine ⟨?_, ?_, ?_⟩
    · simp only [rate_limit, ht]
      split
      · next hgt => simp [hgt]
      · next hle => simp [hle]
    · intro hgt
      simp [rate_limit, ht, hgt]
    · intro hle
      simp [rate_limit, ht, hle]

/-- Witness for C6 at concrete inputs: first call at instant 5 gates and
stores 5; at instant 8 with interval 2 the gate opens and advances; at
instant 7 it stays shut and the table is untouched. -/
theorem claim_C6_witness :
    rate_limit [] "k" 2 5 = (false, [("k", 5)]) ∧
    rate_limit [("k", 5)] "k" 2 8 = (true, [("k", 8)]) ∧
    rate_limit [("k", 5)] "k" 2 7 = (false, [("k", 5)]) :=
  ⟨(claim_C6 [] "k" 2 5).1 (by decide),
    ((claim_C6 [("k", 5)] "k" 2 8).2 5 (by decide)).2.1 (by decide),
    ((claim_C6 [("k", 5)] "k" 2 7).2 5 (by decide)).2.2 (by decide)⟩

/-! ### C2 — launch failure and port release -/

/-- C2 (code bug): launching a process whose single port allocates fine
but whose spawn fails returns the spawn error with port 20000 still in
`allocated_ports` (it was free beforehand), no event logged by
`launch_process` itself and no `LaunchProcess` emitted: the
allocation-failure path releases ports, but the spawn-failure path leaks
them, contradicting the claim (and spec scenario S6). -/
theorem claim_C2 :
    launch_process spawnFailWorld ⟨[20000], []⟩ c2Spec
      = (.err "No such file or directory (os error 2)",
          { free := [], alloc := [20000] }, []) := by
  rfl

/-! ### C7 — health prober -/

/-- C7 counterexample: the prober builds `http://localhost:20000/h`, not
`http://127.0.0.1:20000/h` as the claim states; against a server that
answers only at the `127.0.0.1` URL the probe reports failure. -/
theorem cex_C7 :
    health_url 20000 "h" = "http://localhost:20000/h" ∧
    health_url 20000 "h" ≠ "http://127.0.0.1:20000/h" ∧
    health_check c7Spec c7Entry http127 = .ok false := by
  refine ⟨rfl, by decide, rfl⟩

/-- C7 as amended: the prober returns true when the spec has no health
field; otherwise it looks up the port for `health.service` in the entry's
port map (a missing mapping is an error), issues
`GET http://localhost:<port><path>` with a leading slash synthesized if
the path lacks one, returns true iff the response status is 2xx, false on
a connection-refused-class transport error, and surfaces any other
transport error. -/
theorem claim_C7 (spec : ProcessSpec) (entry : RunningProcessEntry)
    (http : String → HttpOutcome) :
    (spec.health = none → health_check spec entry http = .ok true) ∧
    (∀ h, spec.health = some h →
      (alookup entry.port_allocations h.service = none →
        health_check spec entry http
          = .error ("BUG: No port allocated for service " ++ h.service)) ∧
      (∀ port, alookup entry.port_allocations h.service = some port →
        (starts_with h.path "/" = false →
          health_url port h.path = "http://localhost:" ++ toString port ++ "/" ++ h.path) ∧
        (starts_with h.path "/" = true →
          health_url port h.path = "http://localhost:" ++ toString port ++ h.path) ∧
        (∀ status, http (health_url port h.path) = .success status →
          health_check spec entry http = .ok (decide (200 ≤ status ∧ status < 300))) ∧
        (http (health_url port h.path) = .connectError →
          health_check spec entry http = .ok false) ∧
        (∀ m, http (health_url port h.path) = .otherError m →
          health_check spec entry http = .error m))) := by
  refine ⟨fun h => by simp [health_check, h], fun h hh => ⟨fun hl => ?_, fun port hl => ?_⟩⟩
  · simp [health_check, hh, hl]
  · refine ⟨fun hs => ?_, fun hs => ?_, fun status hres => ?_, fun hres => ?_, fun m hres => ?_⟩
    · simp [health_url, hs]
    · simp [health_url, hs]
    · simp [health_check, hh, hl, hres]
    · simp [health_check, hh, hl, hres]
    · simp [health_check, hh, hl, hres]

/-- Witness for C7 at concrete inputs: against a server answering 200 at
`http://localhost:20000/h`, the probe of service `s` path `h` succeeds. -/
theorem claim_C7_witness :
    health_check c7Spec c7Entry httpLocal = .ok (decide (200 ≤ 200 ∧ 200 < 300)) :=
  (((claim_C7 c7Spec c7Entry httpLocal).2 { service := "s", path := "h" } rfl).2
    20000 (by decide)).2.2.1 200 (by decide)

/-! ### C8 — invalid target rejected -/

/-- C8: a `SetTarget` whose (parsed, secrets-applied) target fails
validation answers `Error` with the validation message, leaves the whole
synced state (accepted target, its text, the process sets) unchanged and
does not write the target file. -/
theorem claim_C8 (st : SyncedGlobalState) (text : String) (t t' : HujingzhiTarget)
    (applySecrets : HujingzhiTarget → Except String HujingzhiTarget)
    (writeFile : Except String Unit) (m : String)
    (hs : applySecrets t = .ok t') (hv : validate_target t' = .error m) :
    set_target st text (.ok t) applySecrets writeFile = (.Error m, st, false) := by
  simp [set_target, hs, hv]

/-- The synced state before the C8 witness request. -/
def c8St : SyncedGlobalState where
  target_text := "old"
  target := { processes := [], services := [] }
  processed_services := []
  processes_by_name := [("p", [])]
  free_loopback_ports := [20000]
  allocated_ports := []
  last_ipvs_state := none

/-- A target with two services named `s`. -/
def c8Target : HujingzhiTarget where
  processes := []
  services := [{ name := "s", «on» := "127.0.0.5:80" }, { name := "s", «on» := "127.0.0.6:80" }]

/-- Witness for C8 at the claim's concrete input: two services named `s`
yield `Error "Duplicate name s in services"`, an unchanged state and no
disk write. -/
theorem claim_C8_witness :
    set_target c8St "newtext" (.ok c8Target) (fun t => .ok t) (.ok ())
      = (.Error "Duplicate name s in services", c8St, false) :=
  claim_C8 c8St "newtext" c8Target c8Target (fun t => .ok t) (.ok ())
    "Duplicate name s in services" rfl (by decide)

/-! ### C5 — ensure current version -/

/-- When the set is empty or the tail's spec differs from the target spec,
the ensure-current match takes the launch arm. -/
theorem ensure_current_launches (w : World) (name : String) (ts : ProcessSpec)
    (pset : ProcessSet) (ps : PortsSt)
    (hcond : pset = [] ∨ ∀ rv e, pset.getLast? = some (rv, e) → rv ≠ ts) :
    ensure_current w name (some ts) pset ps = ensure_launch w name ts pset ps := by
  cases h : pset.getLast? with
  | none => simp [ensure_current, h]
  | some pe =>
    obtain ⟨rv, e⟩ := pe
    have hne : rv ≠ ts := by
      rcases hcond with hnil | hall
      · subst hnil; simp at h
      · exact hall rv e h
    simp [ensure_current, h, hne]

/-- C5: with no target spec nothing is launched; with an up-to-date tail
(spec structurally equal to the target spec) nothing is launched;
otherwise (empty set or differing tail spec) a new version is launched —
appended to the set on success, and on failure an `Error` is logged and
the set is left unchanged. -/
theorem claim_C5 (w : World) (name : String) (pset : ProcessSet) (ps : PortsSt) :
    (ensure_current w name none pset ps = (.ok (), pset, ps, [])) ∧
    (∀ ts rv e, pset.getLast? = some (rv, e) → rv = ts →
      ensure_current w name (some ts) pset ps = (.ok (), pset, ps, [])) ∧
    (∀ ts, (pset = [] ∨ ∀ rv e, pset.getLast? = some (rv, e) → rv ≠ ts) →
      (∀ entry ps' ev, launch_process w ps ts = (.ok entry, ps', ev) →
        ensure_current w name (some ts) pset ps
          = (.ok (), pset ++ [(ts, entry)], ps', ev)) ∧
      (∀ m ps' ev, launch_process w ps ts = (.err m, ps', ev) →
        ensure_current w name (some ts) pset ps
          = (.ok (), pset, ps',
              ev ++ [LogEvent.Error ("Failed to launch process " ++ name ++ ": " ++ m)]))) := by
  refine ⟨rfl, fun ts rv e hlast heq => ?_, fun ts hcond =>
    ⟨fun entry ps' ev hl => ?_, fun m ps' ev hl => ?_⟩⟩
  · simp [ensure_current, hlast, heq]
  · rw [ensure_current_launches w name ts pset ps hcond]
    simp [ensure_launch, hl]
  · rw [ensure_current_launches w name ts pset ps hcond]
    simp [ensure_launch, hl]

/-- A world in which every bind probe succeeds and spawns succeed with
pid 42. -/
def okWorld : World where
  getIpvs := .ok { services := [] }
  createService := fun _ => .ok ()
  testPort := fun _ => some true
  spawn := fun _ => .ok (some 42)
  entryName := fun n => n ++ "-0-42"
  now := 0
  rl := fun _ => false
  http := fun _ => .connectError
  tryWait := fun _ => .ok none
  epochNow := .ok 0
  setWeight := fun _ _ _ => .ok ()
  fuel := 10

/-- The entry `launch_process okWorld ⟨[20000], []⟩ c2Spec` produces. -/
def c5Entry : RunningProcessEntry where
  status := .Starting
  approx_start := 0
  approx_conn_count := 0
  pid := some 42
  name := "p-0-42"
  port_allocations := [("s", 20000)]

/-- Witness for C5 at concrete inputs: an empty set with a target spec
launches and appends the new `Starting` entry, emitting
`LaunchProcess`. -/
theorem claim_C5_witness :
    ensure_current okWorld "p" (some c2Spec) [] ⟨[20000], []⟩
      = (.ok (), [] ++ [(c2Spec, c5Entry)], ⟨[], [20000]⟩,
          [LogEvent.LaunchProcess "p-0-42" "p" [("s", 20000)]]) :=
  ((claim_C5 okWorld "p" [] ⟨[20000], []⟩).2.2 c2Spec (Or.inl rfl)).1
    c5Entry ⟨[], [20000]⟩ [LogEvent.LaunchProcess "p-0-42" "p" [("s", 20000)]] (by decide)

/-! ### Association-list support lemmas -/

/-- The `alookup` on a cons. -/
theorem alookup_cons {κ α : Type} [BEq κ] (k' : κ) (v : α) (rest : List (κ × α)) (k : κ) :
    alookup ((k', v) :: rest) k = if k' == k then some v else alookup rest k := by
  cases h : k' == k <;> simp [alookup, List.find?_cons, h]

/-- The `alookup` succeeds exactly on the keys. -/
theorem alookup_isSome_iff {κ α : Type} [BEq κ] [LawfulBEq κ]
    (l : List (κ × α)) (k : κ) :
    (alookup l k).isSome ↔ k ∈ l.map Prod.fst := by
  induction l with
  | nil => simp [alookup]
  | cons p rest ih =>
    obtain ⟨k', v⟩ := p
    rw [alookup_cons]
    cases h : k' == k with
    | true => simp [eq_of_beq h]
    | false =>
      have : ¬ k = k' := fun hk => by simp [hk] at h
      simp [ih, this]

/-- A hit in the left part survives an append. -/
theorem alookup_append_some {κ α : Type} [BEq κ] (l₁ l₂ : List (κ × α)) (k : κ) (v : α)
    (h : alookup l₁ k = some v) : alookup (l₁ ++ l₂) k = some v := by
  induction l₁ with
  | nil => simp [alookup] at h
  | cons p rest ih =>
    obtain ⟨k', v'⟩ := p
    rw [alookup_cons] at h
    rw [List.cons_append, alookup_cons]
    split at h
    · next hb => rw [if_pos hb]; exact h
    · next hb => rw [if_neg hb]; exact ih h

/-- A miss in the left part defers to the right part. -/
theorem alookup_append_none {κ α : Type} [BEq κ] (l₁ l₂ : List (κ × α)) (k : κ)
    (h : alookup l₁ k = none) : alookup (l₁ ++ l₂) k = alookup l₂ k := by
  induction l₁ with
  | nil => simp
  | cons p rest ih =>
    obtain ⟨k', v'⟩ := p
    rw [alookup_cons] at h
    rw [List.cons_append, alookup_cons]
    split at h
    · exact absurd h (by simp)
    · next hb => rw [if_neg hb]; exact ih h

/-! ### C9 — loopback info build -/

/-- Every key of a completed loopback_info build is an old key or a
visited server port. -/
theorem build_loopback_info_keys (l : List IpvsServer) :
    ∀ acc m, build_loopback_info l acc = some m →
    ∀ p, (alookup m p).isSome ↔ ((alookup acc p).isSome ∨ p ∈ l.map (fun s => s.port)) := by
  induction l with
  | nil =>
    intro acc m h p
    simp only [build_loopback_info, Option.some.injEq] at h
    subst h
    simp
  | cons server rest ih =>
    intro acc m h p
    simp only [build_loopback_info] at h
    split at h
    · exact absurd h (by simp)
    · next hmiss =>
      have hacc : ∀ q, (alookup (acc ++
          [(server.port, (⟨server.active_conn, server.weight⟩ : LoopbackInfo))]) q).isSome
          ↔ ((alookup acc q).isSome ∨ q = server.port) := by
        intro q
        cases hq : alookup acc q with
        | some v => simp [alookup_append_some acc _ q v hq]
        | none =>
          rw [alookup_append_none acc _ q hq, alookup_cons]
          cases hb : server.port == q with
          | true => simp [eq_of_beq hb, hq]
          | false =>
            have : ¬ q = server.port := fun hk => by simp [hk] at hb
            simp [alookup, hq, this]
      rw [ih _ m h p, hacc p]
      simp only [List.map_cons, List.mem_cons]
      tauto

/-- A completed loopback_info build implies the visited ports were
pairwise distinct and fresh relative to the accumulator. -/
theorem build_loopback_info_nodup (l : List IpvsServer) :
    ∀ acc m, build_loopback_info l acc = some m →
    (l.map (fun s => s.port)).Nodup ∧
      ∀ p ∈ l.map (fun s => s.port), (alookup acc p).isSome = false := by
  induction l with
  | nil => intro acc m _; simp
  | cons server rest ih =>
    intro acc m h
    simp only [build_loopback_info] at h
    split at h
    · exact absurd h (by simp)
    · next hmiss =>
      obtain ⟨hnd, hfresh⟩ := ih _ m h
      have hself : (alookup (acc ++
          [(server.port, (⟨server.active_conn, server.weight⟩ : LoopbackInfo))])
            server.port).isSome = true := by
        cases hq : alookup acc server.port with
        | some v => simp [alookup_append_some acc _ _ v hq]
        | none => rw [alookup_append_none acc _ _ hq]; simp [alookup_cons]
      constructor
      · refine List.Nodup.cons (fun hmem => ?_) hnd
        have := hfresh server.port hmem
        rw [hself] at this
        simp at this
      · intro p hp
        rcases List.mem_cons.mp hp with hp0 | hp1
        · subst hp0
          simpa using hmiss
        · have := hfresh p hp1
          cases hq : alookup acc p with
          | some v => rw [alookup_append_some acc _ p v hq] at this; simp at this
          | none => simp

/-- Ports of the servers the loopback_info loop visits, against the raw
snapshot: exactly the `127.0.0.1` servers of virtual services on
`127.0.0.`-prefixed addresses. -/
theorem loopbackEntries_port_mem (services : List IpvsService) (p : Nat) :
    p ∈ (loopbackEntries services).map (fun s => s.port) ↔
      ∃ svc, svc ∈ services ∧ starts_with svc.local_address "127.0.0." = true ∧
        ∃ server, server ∈ svc.servers ∧ server.address = "127.0.0.1" ∧ server.port = p := by
  induction services with
  | nil => simp [loopbackEntries]
  | cons svc rest ih =>
    simp only [loopbackEntries]
    split
    · next hpre =>
      simp only [List.map_append, List.mem_append, ih, List.mem_map, List.mem_filter]
      constructor
      · rintro (⟨server, ⟨hmem, haddr⟩, hport⟩ | ⟨svc', hmem, hpre', server, hs⟩)
        · exact ⟨svc, List.mem_cons_self _ _, hpre,
            server, hmem, by simpa using haddr, hport⟩
        · exact ⟨svc', List.mem_cons_of_mem _ hmem, hpre', server, hs⟩
      · rintro ⟨svc', hmem, hpre', server, hsmem, haddr, hport⟩
        rcases List.mem_cons.mp hmem with rfl | hmem'
        · exact Or.inl ⟨server, ⟨hsmem, by simpa using haddr⟩, hport⟩
        · exact Or.inr ⟨svc', hmem', hpre', server, hsmem, haddr, hport⟩
    · next hpre =>
      rw [ih]
      constructor
      · rintro ⟨svc', hmem, hs⟩
        exact ⟨svc', List.mem_cons_of_mem _ hmem, hs⟩
      · rintro ⟨svc', hmem, hpre', server, hs⟩
        rcases List.mem_cons.mp hmem with rfl | hmem'
        · exact absurd hpre' hpre
        · exact ⟨svc', hmem', hpre', server, hs⟩

/-- An IPVS snapshot with the real server `127.0.0.1:20000` under two
different loopback virtual services. -/
def c9Ipvs : IpvsState where
  services :=
    [ { local_address := "127.0.0.5",
        servers := [{ address := "127.0.0.1", port := 20000, active_conn := 0, weight := 1 }] },
      { local_address := "127.0.0.6",
        servers := [{ address := "127.0.0.1", port := 20000, active_conn := 0, weight := 1 }] } ]

/-- A world whose IPVS snapshot is `c9Ipvs` and whose other effects are
inert. -/
def c9World : World where
  getIpvs := .ok c9Ipvs
  createService := fun _ => .ok ()
  testPort := fun _ => some true
  spawn := fun _ => .ok (some 42)
  entryName := fun n => n ++ "-0-42"
  now := 0
  rl := fun _ => false
  http := fun _ => .connectError
  tryWait := fun _ => .ok none
  epochNow := .ok 0
  setWeight := fun _ _ _ => .ok ()
  fuel := 10

/-- An empty synced state (empty target, no process sets). -/
def emptySt : SyncedGlobalState where
  target_text := ""
  target := { processes := [], services := [] }
  processed_services := []
  processes_by_name := []
  free_loopback_ports := []
  allocated_ports := []
  last_ipvs_state := none

/-- C9: housekeeping against a snapshot holding `127.0.0.1` on the same
port under two loopback virtual services panics (the loopback_info
assertion) rather than logging an error; with pairwise-distinct visited
ports the build is total, and it skips exactly the virtual services whose
IP does not start with `127.0.0.` and the real servers whose address is
not `127.0.0.1`. -/
theorem claim_C9 :
    (housekeeping c9World emptySt).outcome = .panicked ∧
    (∀ services : List IpvsService,
      ¬ ((loopbackEntries services).map (fun s => s.port)).Nodup →
      build_loopback_info (loopbackEntries services) [] = none) ∧
    (∀ services m, build_loopback_info (loopbackEntries services) [] = some m →
      ∀ p, (alookup m p).isSome ↔
        ∃ svc, svc ∈ services ∧ starts_with svc.local_address "127.0.0." = true ∧
          ∃ server, server ∈ svc.servers ∧ server.address = "127.0.0.1" ∧ server.port = p) := by
  refine ⟨by decide, fun services hnd => ?_, fun services m h p => ?_⟩
  · cases hb : build_loopback_info (loopbackEntries services) [] with
    | none => rfl
    | some m => exact absurd (build_loopback_info_nodup _ [] m hb).1 hnd
  · rw [build_loopback_info_keys _ [] m h p, ← loopbackEntries_port_mem]
    simp [alookup]

/-- Witness for C9: the duplicate-port snapshot `c9Ipvs` makes the
loopback_info build panic. -/
theorem claim_C9_witness :
    build_loopback_info (loopbackEntries c9Ipvs.services) [] = none :=
  claim_C9.2.1 c9Ipvs.services (by decide)

/-! ### C4 — weight steering -/

/-- The `WeightChange` payload of an event, if it is one. -/
def wcOf : LogEvent → Option (String × Nat × Int)
  | .WeightChange s p v => some (s, p, v)
  | _ => none

/-- Events and adapter calls of the weight loop correspond one to one. -/
theorem weight_call_loop_filterMap (w : World) (services : List ServiceSpec)
    (linfo : List (Nat × LoopbackInfo)) (tw : Int) :
    ∀ pairs o evs calls, weight_call_loop w services linfo tw pairs = (o, evs, calls) →
    evs.filterMap wcOf = calls := by
  intro pairs
  induction pairs with
  | nil =>
    intro o evs calls h
    simp only [weight_call_loop] at h
    cases h
    simp
  | cons pair rest ih =>
    intro o evs calls h
    obtain ⟨sn, port⟩ := pair
    simp only [weight_call_loop] at h
    split at h
    · cases h; simp
    · split at h
      · split at h
        · cases h; simp [wcOf]
        · rcases hr : weight_call_loop w services linfo tw rest with ⟨o2, evs2, calls2⟩
          rw [hr] at h
          cases h
          simp [wcOf, ih o2 evs2 calls2 hr]
      · exact ih o evs calls h

/-- Events and adapter calls of the per-set weight steering correspond one
to one. -/
theorem adjust_weights_set_filterMap (w : World) (services : List ServiceSpec)
    (linfo : List (Nat × LoopbackInfo)) :
    ∀ pset o evs calls, adjust_weights_set w services linfo pset = (o, evs, calls) →
    evs.filterMap wcOf = calls := by
  intro pset
  induction pset with
  | nil =>
    intro o evs calls h
    simp only [adjust_weights_set] at h
    cases h
    simp
  | cons pe rest ih =>
    intro o evs calls h
    obtain ⟨spec, entry⟩ := pe
    simp only [adjust_weights_set] at h
    split at h
    · next evs1 calls1 hloop =>
      rcases hr : adjust_weights_set w services linfo rest with ⟨o2, evs2, calls2⟩
      rw [hr] at h
      cases h
      rw [List.filterMap_append, weight_call_loop_filterMap w services linfo _ _ _ _ _ hloop,
        ih o2 evs2 calls2 hr]
    · next m evs1 calls1 hloop =>
      cases h
      exact weight_call_loop_filterMap w services linfo _ _ _ _ _ hloop
    · next evs1 calls1 hloop =>
      cases h
      exact weight_call_loop_filterMap w services linfo _ _ _ _ _ hloop
    · next evs1 calls1 hloop =>
      cases h
      exact weight_call_loop_filterMap w services linfo _ _ _ _ _ hloop

/-- Events and adapter calls of the whole weight-steering phase correspond
one to one. -/
theorem adjust_weights_all_filterMap (w : World) (services : List ServiceSpec)
    (linfo : List (Nat × LoopbackInfo)) :
    ∀ pbn o evs calls, adjust_weights_all w services linfo pbn = (o, evs, calls) →
    evs.filterMap wcOf = calls := by
  intro pbn
  induction pbn with
  | nil =>
    intro o evs calls h
    simp only [adjust_weights_all] at h
    cases h
    simp
  | cons pe rest ih =>
    intro o evs calls h
    obtain ⟨name, pset⟩ := pe
    simp only [adjust_weights_all] at h
    split at h
    · next evs1 calls1 hset =>
      rcases hr : adjust_weights_all w services linfo rest with ⟨o2, evs2, calls2⟩
      rw [hr] at h
      cases h
      rw [List.filterMap_append, adjust_weights_set_filterMap w services linfo _ _ _ _ hset,
        ih o2 evs2 calls2 hr]
    · next m evs1 calls1 hset =>
      cases h
      exact adjust_weights_set_filterMap w services linfo _ _ _ _ hset
    · next evs1 calls1 hset =>
      cases h
      exact adjust_weights_set_filterMap w services linfo _ _ _ _ hset
    · next evs1 calls1 hset =>
      cases h
      exact adjust_weights_set_filterMap w services linfo _ _ _ _ hset

/-- On a completed weight loop, every pair whose snapshot weight differs
from the target weight yields the call and the event. -/
theorem weight_call_loop_complete (w : World) (services : List ServiceSpec)
    (linfo : List (Nat × LoopbackInfo)) (tw : Int) :
    ∀ pairs o evs calls, weight_call_loop w services linfo tw pairs = (o, evs, calls) →
    o = .ok () →
    ∀ sn port, (sn, port) ∈ pairs →
    ∀ svc, services.find? (fun s => s.name == sn) = some svc →
    linfo_weight linfo port ≠ tw →
    (svc.name, port, tw) ∈ calls ∧ LogEvent.WeightChange svc.name port tw ∈ evs := by
  intro pairs
  induction pairs with
  | nil => intro o evs calls _ _ sn port hmem; simp at hmem
  | cons pair rest ih =>
    intro o evs calls h hok sn port hmem svc hfind hne
    obtain ⟨sn1, port1⟩ := pair
    simp only [weight_call_loop] at h
    split at h
    · cases h; cases hok
    · next svc1 hfind1 =>
      rcases List.mem_cons.mp hmem with hhead | htail
      · obtain ⟨rfl, rfl⟩ := Prod.mk.injEq .. ▸ hhead
        have hsvc : svc1 = svc := by rw [hfind1] at hfind; exact (Option.some.injEq _ _ ▸ hfind)
        subst hsvc
        rw [if_pos hne] at h
        split at h
        · cases h; cases hok
        · rcases hr : weight_call_loop w services linfo tw rest with ⟨o2, evs2, calls2⟩
          rw [hr] at h
          cases h
          exact ⟨List.mem_cons_self _ _, List.mem_cons_self _ _⟩
      · split at h
        · split at h
          · cases h; cases hok
          · rcases hr : weight_call_loop w services linfo tw rest with ⟨o2, evs2, calls2⟩
            rw [hr] at h
            cases h
            have := ih o2 evs2 calls2 hr hok sn port htail svc hfind hne
            exact ⟨List.mem_cons_of_mem _ this.1, List.mem_cons_of_mem _ this.2⟩
        · exact ih o evs calls h hok sn port htail svc hfind hne

/-- Every call recorded by the weight loop comes from a pair whose
snapshot weight differed from the target weight. -/
theorem weight_call_loop_sound (w : World) (services : List ServiceSpec)
    (linfo : List (Nat × LoopbackInfo)) (tw : Int) :
    ∀ pairs o evs calls, weight_call_loop w services linfo tw pairs = (o, evs, calls) →
    ∀ c, c ∈ calls → ∃ sn port svc, (sn, port) ∈ pairs ∧
      services.find? (fun s => s.name == sn) = some svc ∧
      c = (svc.name, port, tw) ∧ linfo_weight linfo port ≠ tw := by
  intro pairs
  induction pairs with
  | nil =>
    intro o evs calls h c hc
    simp only [weight_call_loop] at h
    cases h
    simp at hc
  | cons pair rest ih =>
    intro o evs calls h c hc
    obtain ⟨sn1, port1⟩ := pair
    simp only [weight_call_loop] at h
    split at h
    · cases h; simp at hc
    · next svc1 hfind1 =>
      split at h
      · next hne =>
        split at h
        · cases h
          rcases List.mem_singleton.mp hc with rfl
          exact ⟨sn1, port1, svc1, List.mem_cons_self _ _, hfind1, rfl, hne⟩
        · rcases hr : weight_call_loop w services linfo tw rest with ⟨o2, evs2, calls2⟩
          rw [hr] at h
          cases h
          rcases List.mem_cons.mp hc with rfl | hc'
          · exact ⟨sn1, port1, svc1, List.mem_cons_self _ _, hfind1, rfl, hne⟩
          · obtain ⟨sn, port, svc, hp, hf, hcs, hw⟩ := ih o2 evs2 calls2 hr c hc'
            exact ⟨sn, port, svc, List.mem_cons_of_mem _ hp, hf, hcs, hw⟩
      · obtain ⟨sn, port, svc, hp, hf, hcs, hw⟩ := ih o evs calls h c hc
        exact ⟨sn, port, svc, List.mem_cons_of_mem _ hp, hf, hcs, hw⟩

/-- The per-entry target weight in the steering phase. -/
def target_weight_of (entry : RunningProcessEntry) : Int :=
  if entry.status = .Running then 1 else 0

/-- Completeness lifted to one process set. -/
theorem adjust_weights_set_complete (w : World) (services : List ServiceSpec)
    (linfo : List (Nat × LoopbackInfo)) :
    ∀ pset o evs calls, adjust_weights_set w services linfo pset = (o, evs, calls) →
    o = .ok () →
    ∀ spec entry, (spec, entry) ∈ pset →
    ∀ sn port, (sn, port) ∈ entry.port_allocations →
    ∀ svc, services.find? (fun s => s.name == sn) = some svc →
    linfo_weight linfo port ≠ target_weight_of entry →
    (svc.name, port, target_weight_of entry) ∈ calls ∧
      LogEvent.WeightChange svc.name port (target_weight_of entry) ∈ evs := by
  intro pset
  induction pset with
  | nil => intro o evs calls _ _ spec entry hmem; simp at hmem
  | cons pe rest ih =>
    intro o evs calls h hok spec entry hmem sn port hp svc hfind hne
    obtain ⟨spec1, entry1⟩ := pe
    simp only [adjust_weights_set] at h
    split at h
    · next evs1 calls1 hloop =>
      rcases hr : adjust_weights_set w services linfo rest with ⟨o2, evs2, calls2⟩
      rw [hr] at h
      cases h
      rcases List.mem_cons.mp hmem with hhead | htail
      · obtain ⟨rfl, rfl⟩ := Prod.mk.injEq .. ▸ hhead
        have := weight_call_loop_complete w services linfo (target_weight_of entry)
          entry.port_allocations _ _ _ (by simpa [target_weight_of] using hloop) rfl
          sn port hp svc hfind hne
        exact ⟨List.mem_append_left _ this.1, List.mem_append_left _ this.2⟩
      · have := ih o2 evs2 calls2 hr hok spec entry htail sn port hp svc hfind hne
        exact ⟨List.mem_append_right _ this.1, List.mem_append_right _ this.2⟩
    · next m evs1 calls1 hloop => cases h; cases hok
    · next evs1 calls1 hloop => cases h; cases hok
    · next evs1 calls1 hloop => cases h; cases hok

/-- Soundness lifted to one process set. -/
theorem adjust_weights_set_sound (w : World) (services : List ServiceSpec)
    (linfo : List (Nat × LoopbackInfo)) :
    ∀ pset o evs calls, adjust_weights_set w services linfo pset = (o, evs, calls) →
    ∀ c, c ∈ calls → ∃ spec entry sn port svc, (spec, entry) ∈ pset ∧
      (sn, port) ∈ entry.port_allocations ∧
      services.find? (fun s => s.name == sn) = some svc ∧
      c = (svc.name, port, target_weight_of entry) ∧
      linfo_weight linfo port ≠ target_weight_of entry := by
  intro pset
  induction pset with
  | nil =>
    intro o evs calls h c hc
    simp only [adjust_weights_set] at h
    cases h
    simp at hc
  | cons pe rest ih =>
    intro o evs calls h c hc
    obtain ⟨spec1, entry1⟩ := pe
    simp only [adjust_weights_set] at h
    have hone : ∀ o1 evs1 calls1, weight_call_loop w services linfo
        (if entry1.status = .Running then 1 else 0) entry1.port_allocations
          = (o1, evs1, calls1) →
        c ∈ calls1 → ∃ spec entry sn port svc, (spec, entry) ∈ (spec1, entry1) :: rest ∧
          (sn, port) ∈ entry.port_allocations ∧
          services.find? (fun s => s.name == sn) = some svc ∧
          c = (svc.name, port, target_weight_of entry) ∧
          linfo_weight linfo port ≠ target_weight_of entry := by
      intro o1 evs1 calls1 hloop hc1
      obtain ⟨sn, port, svc, hp, hf, hcs, hw⟩ :=
        weight_call_loop_sound w services linfo _ entry1.port_allocations _ _ _ hloop c hc1
      exact ⟨spec1, entry1, sn, port, svc, List.mem_cons_self _ _, hp, hf,
        by simpa [target_weight_of] using hcs, by simpa [target_weight_of] using hw⟩
    split at h
    · next evs1 calls1 hloop =>
      rcases hr : adjust_weights_set w services linfo rest with ⟨o2, evs2, calls2⟩
      rw [hr] at h
      cases h
      rcases List.mem_append.mp hc with hc1 | hc2
      · exact hone _ _ _ hloop hc1
      · obtain ⟨spec, entry, sn, port, svc, hm, hrest⟩ := ih o2 evs2 calls2 hr c hc2
        exact ⟨spec, entry, sn, port, svc, List.mem_cons_of_mem _ hm, hrest⟩
    · next m evs1 calls1 hloop => cases h; exact hone _ _ _ hloop hc
    · next evs1 calls1 hloop => cases h; exact hone _ _ _ hloop hc
    · next evs1 calls1 hloop => cases h; exact hone _ _ _ hloop hc

/-- Completeness lifted to the whole phase. -/
theorem adjust_weights_all_complete (w : World) (services : List ServiceSpec)
    (linfo : List (Nat × LoopbackInfo)) :
    ∀ pbn o evs calls, adjust_weights_all w services linfo pbn = (o, evs, calls) →
    o = .ok () →
    ∀ name pset, (name, pset) ∈ pbn →
    ∀ spec entry, (spec, entry) ∈ pset →
    ∀ sn port, (sn, port) ∈ entry.port_allocations →
    ∀ svc, services.find? (fun s => s.name == sn) = some svc →
    linfo_weight linfo port ≠ target_weight_of entry →
    (svc.name, port, target_weight_of entry) ∈ calls ∧
      LogEvent.WeightChange svc.name port (target_weight_of entry) ∈ evs := by
  intro pbn
  induction pbn with
  | nil => intro o evs calls _ _ name pset hmem; simp at hmem
  | cons pe rest ih =>
    intro o evs calls h hok name pset hmem spec entry hment sn port hp svc hfind hne
    obtain ⟨name1, pset1⟩ := pe
    simp only [adjust_weights_all] at h
    split at h
    · next evs1 calls1 hset =>
      rcases hr : adjust_weights_all w services linfo rest with ⟨o2, evs2, calls2⟩
      rw [hr] at h
      cases h
      rcases List.mem_cons.mp hmem with hhead | htail
      · obtain ⟨rfl, rfl⟩ := Prod.mk.injEq .. ▸ hhead
        have := adjust_weights_set_complete w services linfo pset _ _ _ hset rfl
          spec entry hment sn port hp svc hfind hne
        exact ⟨List.mem_append_left _ this.1, List.mem_append_left _ this.2⟩
      · have := ih o2 evs2 calls2 hr hok name pset htail spec entry hment sn port hp svc hfind hne
        exact ⟨List.mem_append_right _ this.1, List.mem_append_right _ this.2⟩
    · next m evs1 calls1 hset => cases h; cases hok
    · next evs1 calls1 hset => cases h; cases hok
    · next evs1 calls1 hset => cases h; cases hok

/-- Soundness lifted to the whole phase. -/
theorem adjust_weights_all_sound (w : World) (services : List ServiceSpec)
    (linfo : List (Nat × LoopbackInfo)) :
    ∀ pbn o evs calls, adjust_weights_all w services linfo pbn = (o, evs, calls) →
    ∀ c, c ∈ calls → ∃ name pset spec entry sn port svc, (name, pset) ∈ pbn ∧
      (spec, entry) ∈ pset ∧ (sn, port) ∈ entry.port_allocations ∧
      services.find? (fun s => s.name == sn) = some svc ∧
      c = (svc.name, port, target_weight_of entry) ∧
      linfo_weight linfo port ≠ target_weight_of entry := by
  intro pbn
  induction pbn with
  | nil =>
    intro o evs calls h c hc
    simp only [adjust_weights_all] at h
    cases h
    simp at hc
  | cons pe rest ih =>
    intro o evs calls h c hc
    obtain ⟨name1, pset1⟩ := pe
    simp only [adjust_weights_all] at h
    have hone : ∀ o1 evs1 calls1, adjust_weights_set w services linfo pset1 = (o1, evs1, calls1) →
        c ∈ calls1 → ∃ name pset spec entry sn port svc, (name, pset) ∈ (name1, pset1) :: rest ∧
          (spec, entry) ∈ pset ∧ (sn, port) ∈ entry.port_allocations ∧
          services.find? (fun s => s.name == sn) = some svc ∧
          c = (svc.name, port, target_weight_of entry) ∧
          linfo_weight linfo port ≠ target_weight_of entry := by
      intro o1 evs1 calls1 hset hc1
      obtain ⟨spec, entry, sn, port, svc, hm, hrest⟩ :=
        adjust_weights_set_sound w services linfo pset1 _ _ _ hset c hc1
      exact ⟨name1, pset1, spec, entry, sn, port, svc, List.mem_cons_self _ _, hm, hrest⟩
    split at h
    · next evs1 calls1 hset =>
      rcases hr : adjust_weights_all w services linfo rest with ⟨o2, evs2, calls2⟩
      rw [hr] at h
      cases h
      rcases List.mem_append.mp hc with hc1 | hc2
      · exact hone _ _ _ hset hc1
      · obtain ⟨name, pset, spec, entry, sn, port, svc, hm, hrest⟩ := ih o2 evs2 calls2 hr c hc2
        exact ⟨name, pset, spec, entry, sn, port, svc, List.mem_cons_of_mem _ hm, hrest⟩
    · next m evs1 calls1 hset => cases h; exact hone _ _ _ hset hc
    · next evs1 calls1 hset => cases h; exact hone _ _ _ hset hc
    · next evs1 calls1 hset => cases h; exact hone _ _ _ hset hc

/-- C4: in the weight-steering phase every surviving entry's target weight
is 1 iff it is `Running` (`target_weight_of`); a completed phase emits a
`WeightChange` and calls the adapter for every `(service, port)` whose
snapshot weight (absent treated 0) differs from the target weight; every
recorded adapter call stems from such a difference; and the `WeightChange`
events correspond one to one to the adapter calls of the tick. -/
theorem claim_C4 (w : World) (services : List ServiceSpec)
    (linfo : List (Nat × LoopbackInfo)) (pbn : List (String × ProcessSet))
    (o : Outcome Unit) (evs : List LogEvent) (calls : List (String × Nat × Int))
    (h : adjust_weights_all w services linfo pbn = (o, evs, calls)) :
    (∀ entry : RunningProcessEntry,
      (entry.status = .Running → target_weight_of entry = 1) ∧
      (entry.status ≠ .Running → target_weight_of entry = 0)) ∧
    (evs.filterMap wcOf = calls) ∧
    (o = .ok () → ∀ name pset, (name, pset) ∈ pbn →
      ∀ spec entry, (spec, entry) ∈ pset →
      ∀ sn port, (sn, port) ∈ entry.port_allocations →
      ∀ svc, services.find? (fun s => s.name == sn) = some svc →
      linfo_weight linfo port ≠ target_weight_of entry →
      (svc.name, port, target_weight_of entry) ∈ calls ∧
        LogEvent.WeightChange svc.name port (target_weight_of entry) ∈ evs) ∧
    (∀ c, c ∈ calls → ∃ name pset spec entry sn port svc, (name, pset) ∈ pbn ∧
      (spec, entry) ∈ pset ∧ (sn, port) ∈ entry.port_allocations ∧
      services.find? (fun s => s.name == sn) = some svc ∧
      c = (svc.name, port, target_weight_of entry) ∧
      linfo_weight linfo port ≠ target_weight_of entry) := by
  refine ⟨fun entry => ⟨fun hr => by simp [target_weight_of, hr],
      fun hr => by simp [target_weight_of, hr]⟩,
    adjust_weights_all_filterMap w services linfo pbn o evs calls h,
    fun hok name pset hm spec entry hment sn port hp svc hfind hne =>
      adjust_weights_all_complete w services linfo pbn o evs calls h hok
        name pset hm spec entry hment sn port hp svc hfind hne,
    fun c hc => adjust_weights_all_sound w services linfo pbn o evs calls h c hc⟩

/-- Fixture: a `Running` entry holding port 20000 for service `s`. -/
def c4Entry : RunningProcessEntry where
  status := .Running
  approx_start := 0
  approx_conn_count := 0
  pid := some 42
  name := "e"
  port_allocations := [("s", 20000)]

/-- Fixture: the target's single service `s`. -/
def c4Services : List ServiceSpec := [{ name := "s", «on» := "127.0.0.5:80" }]

/-- Fixture: one process set map holding the `Running` entry. -/
def c4Pbn : List (String × ProcessSet) := [("p", [(c2Spec, c4Entry)])]

/-- Witness for C4 at concrete inputs: with an empty snapshot the Running
entry's port differs (0 versus 1), so the phase emits exactly one
`WeightChange`, whose payload matches the recorded adapter call. -/
theorem claim_C4_witness :
    ([LogEvent.WeightChange "s" 20000 1].filterMap wcOf = [("s", 20000, (1 : Int))]) ∧
    ("s", 20000, (1 : Int)) ∈ [("s", 20000, (1 : Int))] := by
  have h := claim_C4 okWorld c4Services [] c4Pbn (.ok ())
    [LogEvent.WeightChange "s" 20000 1] [("s", 20000, (1 : Int))] (by decide)
  refine ⟨h.2.1, ?_⟩
  have := h.2.2.1 rfl "p" [(c2Spec, c4Entry)] (by simp [c4Pbn])
    c2Spec c4Entry (by simp) "s" 20000 (by simp [c4Entry]) { name := "s", «on» := "127.0.0.5:80" }
    (by decide) (by decide)
  exact this.1

/-! ### C3 — at most one Running entry per set -/

/-- The number of `Running` entries in a process set. -/
def countRunning (l : ProcessSet) : Nat :=
  (l.filter (fun pe => decide (pe.2.status = ProcessStatus.Running))).length

theorem countRunning_cons (pe : ProcessSpec × RunningProcessEntry) (l : ProcessSet) :
    countRunning (pe :: l)
      = (if pe.2.status = .Running then 1 else 0) + countRunning l := by
  by_cases h : pe.2.status = .Running <;>
    simp [countRunning, List.filter_cons, h, Nat.add_comm]

theorem countRunning_append (l₁ l₂ : ProcessSet) :
    countRunning (l₁ ++ l₂) = countRunning l₁ + countRunning l₂ := by
  simp [countRunning, List.filter_append]

theorem countRunning_reverse (l : ProcessSet) :
    countRunning l.reverse = countRunning l := by
  induction l with
  | nil => rfl
  | cons pe rest ih =>
    rw [List.reverse_cons, countRunning_append, ih, countRunning_cons, countRunning_cons]
    have h0 : countRunning [] = 0 := rfl
    rw [h0]
    omega

/-- A placeholder pair for `List.getD` on process sets. -/
def pdummy : ProcessSpec × RunningProcessEntry :=
  ({ name := "", command := [], cwd := none, uid := none, gid := none, env := [],
      receives := [], health := none },
    { status := .Starting, approx_start := 0, approx_conn_count := 0, pid := none,
      name := "", port_allocations := [] })

/-- Unfolding the sunset walk at a `Running` head with the flag set. -/
theorem sunset_rev_cons_run_true (spec : ProcessSpec) (e : RunningProcessEntry)
    (rest : ProcessSet) (he : e.status = .Running) :
    sunset_rev true ((spec, e) :: rest)
      = ((spec, { e with status := .Sunsetting }) :: (sunset_rev true rest).1,
          LogEvent.StatusChange e.name .Sunsetting :: (sunset_rev true rest).2.1,
          (e.name, e.pid) :: (sunset_rev true rest).2.2) := by
  rcases hrT : sunset_rev true rest with ⟨a, b, c⟩
  simp only [sunset_rev, he, hrT]
  rfl

/-- Unfolding the sunset walk at a `Running` head with the flag clear:
the head is kept and sets the flag. -/
theorem sunset_rev_cons_run_false (spec : ProcessSpec) (e : RunningProcessEntry)
    (rest : ProcessSet) (he : e.status = .Running) :
    sunset_rev false ((spec, e) :: rest)
      = ((spec, e) :: (sunset_rev true rest).1,
          (sunset_rev true rest).2.1, (sunset_rev true rest).2.2) := by
  rcases hrT : sunset_rev true rest with ⟨a, b, c⟩
  simp only [sunset_rev, he, hrT]
  rfl

/-- Unfolding the sunset walk at a non-`Running` head. -/
theorem sunset_rev_cons_notrun (flag : Bool) (spec : ProcessSpec)
    (e : RunningProcessEntry) (rest : ProcessSet) (he : ¬ e.status = .Running) :
    sunset_rev flag ((spec, e) :: rest)
      = ((spec, e) :: (sunset_rev flag rest).1,
          (sunset_rev flag rest).2.1, (sunset_rev flag rest).2.2) := by
  rcases hrF : sunset_rev flag rest with ⟨a, b, c⟩
  simp only [sunset_rev, hrF]
  rw [if_neg he]

theorem sunset_rev_length (l : ProcessSet) :
    ∀ flag, (sunset_rev flag l).1.length = l.length := by
  induction l with
  | nil => intro flag; rfl
  | cons x rest ih =>
    intro flag
    obtain ⟨spec, e⟩ := x
    by_cases he : e.status = .Running
    · cases flag
      · rw [sunset_rev_cons_run_false spec e rest he]
        simp [ih true]
      · rw [sunset_rev_cons_run_true spec e rest he]
        simp [ih true]
    · rw [sunset_rev_cons_notrun flag spec e rest he]
      simp [ih flag]

/-- Membership of an earlier `Running` entry, pushed through a cons. -/
theorem exists_running_cons (x : ProcessSpec × RunningProcessEntry) (rest : ProcessSet)
    (i : Nat) :
    (∃ j, j < i + 1 ∧ ((x :: rest).getD j pdummy).2.status = .Running)
      ↔ (x.2.status = .Running ∨
          ∃ j, j < i ∧ ((rest.getD j pdummy).2.status = .Running)) := by
  constructor
  · rintro ⟨j, hlt, hP⟩
    cases j with
    | zero => exact Or.inl hP
    | succ j2 => exact Or.inr ⟨j2, Nat.lt_of_succ_lt_succ hlt, hP⟩
  · rintro (hx | ⟨j, hlt, hP⟩)
    · exact ⟨0, Nat.succ_pos _, hx⟩
    · exact ⟨j + 1, Nat.succ_lt_succ hlt, hP⟩

/-- The tail-to-head sunset walk, element by element: an entry is
transitioned to `Sunsetting` — with its `StatusChange` emitted and its pid
signalled — exactly when it is `Running` and a `Running` entry was already
seen (earlier in the walk, or the incoming flag); every other entry is
returned unchanged. -/
theorem sunset_rev_char (l : ProcessSet) :
    ∀ (flag : Bool) (i : Nat), i < l.length →
    ((((l.getD i pdummy).2.status = .Running) ∧
        (flag = true ∨ ∃ j, j < i ∧ (l.getD j pdummy).2.status = .Running)) →
      ((sunset_rev flag l).1.getD i pdummy
          = ((l.getD i pdummy).1, { (l.getD i pdummy).2 with status := .Sunsetting }) ∧
        ((l.getD i pdummy).2.name, (l.getD i pdummy).2.pid) ∈ (sunset_rev flag l).2.2 ∧
        LogEvent.StatusChange (l.getD i pdummy).2.name .Sunsetting
          ∈ (sunset_rev flag l).2.1)) ∧
    (¬(((l.getD i pdummy).2.status = .Running) ∧
        (flag = true ∨ ∃ j, j < i ∧ (l.getD j pdummy).2.status = .Running)) →
      (sunset_rev flag l).1.getD i pdummy = l.getD i pdummy) := by
  induction l with
  | nil => intro flag i hi; exact absurd hi (Nat.not_lt_zero i)
  | cons x rest ih =>
    intro flag i hi
    obtain ⟨spec, e⟩ := x
    by_cases he : e.status = .Running
    · cases flag
      · rw [sunset_rev_cons_run_false spec e rest he]
        cases i with
        | zero =>
          refine ⟨fun hcond => ?_, fun hncond => rfl⟩
          rcases hcond.2 with hfl | ⟨j, hj0, _⟩
          · exact absurd hfl (by simp)
          · exact absurd hj0 (Nat.not_lt_zero j)
        | succ i2 =>
          have hi2 : i2 < rest.length := Nat.lt_of_succ_lt_succ hi
          have hih := ih true i2 hi2
          refine ⟨fun hcond => ?_, fun hncond => ?_⟩
          · have := hih.1 ⟨hcond.1, Or.inl rfl⟩
            exact ⟨this.1, this.2.1, this.2.2⟩
          · refine hih.2 (fun hc => hncond ?_)
            exact ⟨hc.1, Or.inr ⟨0, Nat.succ_pos i2, he⟩⟩
      · rw [sunset_rev_cons_run_true spec e rest he]
        cases i with
        | zero =>
          refine ⟨fun hcond => ⟨rfl, List.mem_cons_self _ _, List.mem_cons_self _ _⟩,
            fun hncond => absurd ⟨he, Or.inl rfl⟩ hncond⟩
        | succ i2 =>
          have hi2 : i2 < rest.length := Nat.lt_of_succ_lt_succ hi
          have hih := ih true i2 hi2
          refine ⟨fun hcond => ?_, fun hncond => ?_⟩
          · have := hih.1 ⟨hcond.1, Or.inl rfl⟩
            exact ⟨this.1, List.mem_cons_of_mem _ this.2.1, List.mem_cons_of_mem _ this.2.2⟩
          · refine hih.2 (fun hc => hncond ?_)
            exact ⟨hc.1, Or.inl rfl⟩
    · rw [sunset_rev_cons_notrun flag spec e rest he]
      cases i with
      | zero =>
        refine ⟨fun hcond => absurd hcond.1 he, fun hncond => rfl⟩
      | succ i2 =>
        have hi2 : i2 < rest.length := Nat.lt_of_succ_lt_succ hi
        have hih := ih flag i2 hi2
        refine ⟨fun hcond => ?_, fun hncond => ?_⟩
        · have h2 : flag = true ∨ ∃ j, j < i2 ∧ (rest.getD j pdummy).2.status = .Running := by
            rcases hcond.2 with hfl | hex
            · exact Or.inl hfl
            · rcases (exists_running_cons (spec, e) rest i2).mp hex with hx | hrest
              · exact absurd hx he
              · exact Or.inr hrest
          have := hih.1 ⟨hcond.1, h2⟩
          exact ⟨this.1, this.2.1, this.2.2⟩
        · refine hih.2 (fun hc => hncond ?_)
          rcases hc.2 with hfl | hex
          · exact ⟨hc.1, Or.inl hfl⟩
          · exact ⟨hc.1, Or.inr ((exists_running_cons (spec, e) rest i2).mpr (Or.inr hex))⟩

theorem sunset_rev_count (l : ProcessSet) :
    ∀ flag, countRunning (sunset_rev flag l).1 ≤ (if flag = true then 0 else 1) := by
  induction l with
  | nil => intro flag; cases flag <;> simp [sunset_rev, countRunning]
  | cons x rest ih =>
    intro flag
    obtain ⟨spec, e⟩ := x
    by_cases he : e.status = .Running
    · have hT0 : countRunning (sunset_rev true rest).1 = 0 :=
        Nat.le_zero.mp (by simpa using ih true)
      cases flag
      · rw [sunset_rev_cons_run_false spec e rest he, countRunning_cons]
        simp [he, hT0]
      · rw [sunset_rev_cons_run_true spec e rest he, countRunning_cons]
        simp [hT0]
    · rw [sunset_rev_cons_notrun flag spec e rest he, countRunning_cons]
      have hF := ih flag
      cases flag
      · simpa [he] using hF
      · simpa [he] using hF

theorem sunset_pass_count (l : ProcessSet) : countRunning (sunset_pass l).1 ≤ 1 := by
  rcases hr : sunset_rev false l.reverse with ⟨r, ev, sig⟩
  have h1 := sunset_rev_count l.reverse false
  rw [hr] at h1
  simp only [Bool.false_eq_true, if_false] at h1
  simp only [sunset_pass, hr, countRunning_reverse]
  exact h1

theorem reap_loop_count (w : World) :
    ∀ l o l2 ev, reap_loop w l = (o, l2, ev) → countRunning l2 ≤ countRunning l := by
  intro l
  induction l with
  | nil =>
    intro o l2 ev h
    simp only [reap_loop] at h
    cases h
    exact Nat.le_refl _
  | cons pe rest ih =>
    intro o l2 ev h
    obtain ⟨spec, entry⟩ := pe
    simp only [reap_loop] at h
    split at h
    · cases h; exact Nat.le_refl _
    · rcases hr : reap_loop w rest with ⟨o2, rest2, ev2⟩
      rw [hr] at h
      dsimp only at h
      cases h
      rw [countRunning_cons, countRunning_cons]
      exact Nat.add_le_add_left (ih _ _ _ hr) _
    · next code hcode =>
      split at h
      · cases h; exact Nat.le_refl _
      · next t ht =>
        rcases hr : reap_loop w rest with ⟨o2, rest2, ev2⟩
        rw [hr] at h
        dsimp only at h
        cases h
        rw [countRunning_cons, countRunning_cons]
        have h1 : ¬ ({ entry with status := ProcessStatus.Exited (code.getD (-1)) t } :
            RunningProcessEntry).status = .Running := by simp
        rw [if_neg h1]
        have := ih _ _ _ hr
        omega

theorem collect_exited_count (l : ProcessSet) :
    countRunning (collect_exited l) ≤ countRunning l :=
  List.Sublist.length_le (List.Sublist.filter _ (List.filter_sublist l))

theorem set_conn_counts_count (linfo : List (Nat × LoopbackInfo)) (l : ProcessSet) :
    countRunning (set_conn_counts linfo l) = countRunning l := by
  induction l with
  | nil => rfl
  | cons pe rest ih =>
    obtain ⟨spec, entry⟩ := pe
    simp only [set_conn_counts, List.map_cons] at ih ⊢
    rw [countRunning_cons, countRunning_cons, ih]

theorem demote_loop_count (w : World) :
    ∀ l o l2 ev, demote_loop w l = (o, l2, ev) → countRunning l2 ≤ countRunning l := by
  intro l
  induction l with
  | nil =>
    intro o l2 ev h
    simp only [demote_loop] at h
    cases h
    exact Nat.le_refl _
  | cons pe rest ih =>
    intro o l2 ev h
    obtain ⟨spec, entry⟩ := pe
    simp only [demote_loop] at h
    split at h
    · split at h
      · cases h; exact Nat.le_refl _
      · next healthy _ =>
        rcases hr : demote_loop w rest with ⟨o2, rest2, ev2⟩
        rw [hr] at h
        dsimp only at h
        split at h
        · next hh =>
          cases h
          rw [countRunning_cons, countRunning_cons]
          exact Nat.add_le_add_left (ih _ _ _ hr) _
        · next hh =>
          cases h
          rw [countRunning_cons, countRunning_cons]
          have h1 : ¬ ({ entry with status := ProcessStatus.Unhealthy } :
              RunningProcessEntry).status = .Running := by simp
          rw [if_neg h1]
          have := ih _ _ _ hr
          omega
    · rcases hr : demote_loop w rest with ⟨o2, rest2, ev2⟩
      rw [hr] at h
      dsimp only at h
      cases h
      rw [countRunning_cons, countRunning_cons]
      exact Nat.add_le_add_left (ih _ _ _ hr) _

/-- The `promote_tail` either succeeds or fails with the set unchanged; it
never spins or panics. -/
theorem promote_tail_shape (w : World) (l : ProcessSet) :
    (promote_tail w l).1 = .ok () ∨
      ∃ m, promote_tail w l = (.err m, l, []) := by
  simp only [promote_tail]
  split
  · exact Or.inl rfl
  · split
    · split
      · next m _ => exact Or.inr ⟨m, rfl⟩
      · exact Or.inl rfl
      · exact Or.inl rfl
    · exact Or.inl rfl

/-- The `demote_loop` never spins or panics. -/
theorem demote_loop_shape (w : World) :
    ∀ l, (demote_loop w l).1 = .ok () ∨ ∃ m, (demote_loop w l).1 = .err m := by
  intro l
  induction l with
  | nil => exact Or.inl rfl
  | cons pe rest ih =>
    obtain ⟨spec, entry⟩ := pe
    simp only [demote_loop]
    split
    · split
      · next m _ => exact Or.inr ⟨m, rfl⟩
      · rcases hr : demote_loop w rest with ⟨o2, rest2, ev2⟩
        rw [hr] at ih
        simp only at ih
        rcases ih with hok | ⟨m, herr⟩
        · subst hok
          exact Or.inl rfl
        · subst herr
          exact Or.inr ⟨m, rfl⟩
    · rcases hr : demote_loop w rest with ⟨o2, rest2, ev2⟩
      rw [hr] at ih
      simp only at ih
      rcases ih with hok | ⟨m, herr⟩
      · subst hok
        exact Or.inl rfl
      · subst herr
        exact Or.inr ⟨m, rfl⟩

/-- A successfully completed per-set status pass followed by the collect
step leaves at most one `Running` entry, whatever the input. -/
theorem update_statuses_ok_count (w : World) (linfo : List (Nat × LoopbackInfo))
    (pset : ProcessSet) (s2 : ProcessSet) (ev : List LogEvent)
    (sig : List (String × Option Nat))
    (h : update_statuses_set w linfo pset = (.ok (), s2, ev, sig)) :
    countRunning (collect_exited s2) ≤ 1 := by
  simp only [update_statuses_set] at h
  split at h
  · split at h
    · next p3 ev3 hpro =>
      rcases hsp : sunset_pass p3 with ⟨p4, ev4, sig4⟩
      rw [hsp] at h
      rcases hrp : reap_loop w p4 with ⟨o5, p5, ev5⟩
      rw [hrp] at h
      dsimp only at h
      simp only [Prod.mk.injEq] at h
      obtain ⟨ho5, hs2, _, _⟩ := h
      subst hs2
      have h1 := collect_exited_count p5
      have h2 := reap_loop_count w p4 o5 p5 ev5 hrp
      have h3 := sunset_pass_count p3
      rw [hsp] at h3
      dsimp only at h3
      omega
    · simp at h
    · simp at h
    · simp at h
  · simp at h
  · simp at h
  · simp at h

/-- Any per-set status pass (also an aborted one) followed by collect
preserves the at-most-one-`Running` invariant. -/
theorem update_statuses_pres_count (w : World) (linfo : List (Nat × LoopbackInfo))
    (pset : ProcessSet) (o : Outcome Unit) (s2 : ProcessSet) (ev : List LogEvent)
    (sig : List (String × Option Nat))
    (h : update_statuses_set w linfo pset = (o, s2, ev, sig))
    (hle : countRunning pset ≤ 1) :
    countRunning (collect_exited s2) ≤ 1 := by
  simp only [update_statuses_set] at h
  split at h
  · next p2 ev2 hdem =>
    split at h
    · next p3 ev3 hpro =>
      rcases hsp : sunset_pass p3 with ⟨p4, ev4, sig4⟩
      rw [hsp] at h
      rcases hrp : reap_loop w p4 with ⟨o5, p5, ev5⟩
      rw [hrp] at h
      dsimp only at h
      simp only [Prod.mk.injEq] at h
      obtain ⟨ho5, hs2, _, _⟩ := h
      subst hs2
      have h1 := collect_exited_count p5
      have h2 := reap_loop_count w p4 o5 p5 ev5 hrp
      have h3 := sunset_pass_count p3
      rw [hsp] at h3
      dsimp only at h3
      omega
    · next m p3 ev3 hpro =>
      simp only [Prod.mk.injEq] at h
      obtain ⟨_, hs2, _, _⟩ := h
      subst hs2
      rcases promote_tail_shape w p2 with hok | ⟨m2, heq⟩
      · rw [hpro] at hok
        simp at hok
      · rw [hpro] at heq
        have hp3 : p3 = p2 := by
          have := congrArg (fun t => t.2.1) heq
          simpa using this
        subst hp3
        have h1 := collect_exited_count p3
        have h2 := demote_loop_count w (set_conn_counts linfo pset) _ _ _ hdem
        rw [set_conn_counts_count] at h2
        omega
    · next p3 ev3 hpro =>
      rcases promote_tail_shape w p2 with hok | ⟨m2, heq⟩
      · rw [hpro] at hok
        simp at hok
      · rw [hpro] at heq
        simp at heq
    · next p3 ev3 hpro =>
      rcases promote_tail_shape w p2 with hok | ⟨m2, heq⟩
      · rw [hpro] at hok
        simp at hok
      · rw [hpro] at heq
        simp at heq
  · next m p2 ev2 hdem =>
    simp only [Prod.mk.injEq] at h
    obtain ⟨_, hs2, _, _⟩ := h
    subst hs2
    have h1 := collect_exited_count p2
    have h2 := demote_loop_count w (set_conn_counts linfo pset) _ _ _ hdem
    rw [set_conn_counts_count] at h2
    omega
  · next p2 ev2 hdem =>
    rcases demote_loop_shape w (set_conn_counts linfo pset) with hok | ⟨m2, herr⟩
    · rw [hdem] at hok
      simp at hok
    · rw [hdem] at herr
      simp at herr
  · next p2 ev2 hdem =>
    rcases demote_loop_shape w (set_conn_counts linfo pset) with hok | ⟨m2, herr⟩
    · rw [hdem] at hok
      simp at hok
    · rw [hdem] at herr
      simp at herr

/-- C3: the sunset walk keeps the first `Running` entry seen tail-to-head
and transitions every subsequent `Running` entry to `Sunsetting` with a
SIGTERM and a `StatusChange` (element-by-element characterization of
`sunset_rev`, which `sunset_pass` runs on the reversed set); a completed
per-set status pass followed by the collect step always leaves at most one
`Running` entry; and even an aborted pass preserves the
at-most-one-`Running` invariant (the later reap and collect steps never
create a `Running` entry). -/
theorem claim_C3 :
    (∀ (l : ProcessSet) (flag : Bool) (i : Nat), i < l.length →
      ((((l.getD i pdummy).2.status = .Running) ∧
          (flag = true ∨ ∃ j, j < i ∧ (l.getD j pdummy).2.status = .Running)) →
        ((sunset_rev flag l).1.getD i pdummy
            = ((l.getD i pdummy).1, { (l.getD i pdummy).2 with status := .Sunsetting }) ∧
          ((l.getD i pdummy).2.name, (l.getD i pdummy).2.pid) ∈ (sunset_rev flag l).2.2 ∧
          LogEvent.StatusChange (l.getD i pdummy).2.name .Sunsetting
            ∈ (sunset_rev flag l).2.1)) ∧
      (¬(((l.getD i pdummy).2.status = .Running) ∧
          (flag = true ∨ ∃ j, j < i ∧ (l.getD j pdummy).2.status = .Running)) →
        (sunset_rev flag l).1.getD i pdummy = l.getD i pdummy)) ∧
    (∀ w linfo pset s2 ev sig,
      update_statuses_set w linfo pset = (.ok (), s2, ev, sig) →
      countRunning (collect_exited s2) ≤ 1) ∧
    (∀ w linfo pset o s2 ev sig,
      update_statuses_set w linfo pset = (o, s2, ev, sig) →
      countRunning pset ≤ 1 →
      countRunning (collect_exited s2) ≤ 1) :=
  ⟨fun l flag i hi => sunset_rev_char l flag i hi,
    fun w linfo pset s2 ev sig h => update_statuses_ok_count w linfo pset s2 ev sig h,
    fun w linfo pset o s2 ev sig h hle =>
      update_statuses_pres_count w linfo pset o s2 ev sig h hle⟩

/-- Fixture: a set with two `Running` entries (older first). -/
def c3Old : RunningProcessEntry where
  status := .Running
  approx_start := 0
  approx_conn_count := 0
  pid := some 7
  name := "old"
  port_allocations := []

/-- Fixture: the newer `Running` entry. -/
def c3New : RunningProcessEntry where
  status := .Running
  approx_start := 0
  approx_conn_count := 0
  pid := some 8
  name := "new"
  port_allocations := []

/-- Fixture: the two-Running process set. -/
def c3Pset : ProcessSet := [(c2Spec, c3Old), (c2Spec, c3New)]

/-- Witness for C3 at concrete inputs: walking the two-Running set, the
older entry (index 0 of the walked reversed list is the newer one) is
sunsetted and the status pass plus collect leaves exactly one `Running`
entry. -/
theorem claim_C3_witness :
    ((sunset_rev false c3Pset.reverse).1.getD 1 pdummy
        = ((c3Pset.reverse.getD 1 pdummy).1,
            { (c3Pset.reverse.getD 1 pdummy).2 with status := .Sunsetting }) ∧
      ((c3Pset.reverse.getD 1 pdummy).2.name, (c3Pset.reverse.getD 1 pdummy).2.pid)
          ∈ (sunset_rev false c3Pset.reverse).2.2 ∧
      LogEvent.StatusChange (c3Pset.reverse.getD 1 pdummy).2.name .Sunsetting
          ∈ (sunset_rev false c3Pset.reverse).2.1) ∧
    countRunning (collect_exited
      [(c2Spec, { c3Old with status := .Sunsetting }), (c2Spec, c3New)]) ≤ 1 := by
  constructor
  · exact (claim_C3.1 c3Pset.reverse false 1 (by decide)).1
      (by refine ⟨by decide, Or.inr ⟨0, Nat.zero_lt_one, by decide⟩⟩)
  · exact claim_C3.2.1 okWorld [] c3Pset
      [(c2Spec, { c3Old with status := .Sunsetting }), (c2Spec, c3New)]
      [LogEvent.StatusChange "old" ProcessStatus.Sunsetting] [("old", some 7)] (by decide)

/-! ### C1 — ports of exited entries stay allocated -/

/-- The `allocate_port` never removes a port from the allocated set. -/
theorem allocate_port_alloc_mono :
    ∀ fuel ps tp o ps2 ev, allocate_port fuel ps tp = (o, ps2, ev) →
    ∀ q, q ∈ ps.alloc → q ∈ ps2.alloc := by
  intro fuel
  induction fuel with
  | zero =>
    intro ps tp o ps2 ev h q hq
    simp only [allocate_port] at h
    cases h
    exact hq
  | succ fuel ih =>
    intro ps tp o ps2 ev h q hq
    simp only [allocate_port] at h
    split at h
    · cases h; exact hq
    · next port rest hfree =>
      split at h
      · cases h; exact hq
      · rcases hr : allocate_port fuel { ps with free := rest ++ [port] } tp
          with ⟨o2, ps3, ev3⟩
        rw [hr] at h
        dsimp only at h
        cases h
        exact ih _ tp _ _ _ hr q hq
      · split at h
        · cases h; exact hq
        · cases h; exact List.mem_cons_of_mem _ hq

/-- A successful `allocate_port` returns a fresh port and pushes it onto
the allocated set. -/
theorem allocate_port_ok :
    ∀ fuel ps tp p ps2 ev, allocate_port fuel ps tp = (.ok p, ps2, ev) →
    p ∉ ps.alloc ∧ ps2.alloc = p :: ps.alloc := by
  intro fuel
  induction fuel with
  | zero =>
    intro ps tp p ps2 ev h
    simp only [allocate_port] at h
    cases h
  | succ fuel ih =>
    intro ps tp p ps2 ev h
    simp only [allocate_port] at h
    split at h
    · cases h
    · next port rest hfree =>
      split at h
      · cases h
      · rcases hr : allocate_port fuel { ps with free := rest ++ [port] } tp
          with ⟨o2, ps3, ev3⟩
        rw [hr] at h
        dsimp only at h
        cases h
        exact ih { ps with free := rest ++ [port] } tp _ _ _ hr
      · next hin =>
        split at h
        · cases h
        · next hnin =>
          cases h
          exact ⟨hnin, rfl⟩

/-- The launch-failure release loop never releases a port outside the
given list. -/
theorem release_ports_keep :
    ∀ l ps q, q ∈ ps.alloc → q ∉ l → q ∈ (release_ports ps l).2.alloc := by
  intro l
  induction l with
  | nil => intro ps q hq _; exact hq
  | cons p rest ih =>
    intro ps q hq hnot
    have hne : q ≠ p := fun hqp => hnot (hqp ▸ List.mem_cons_self _ _)
    simp only [release_ports]
    cases hrp : release_port ps p with
    | none =>
      exact hq
    | some ps1 =>
      have hq1 : q ∈ ps1.alloc := by
        simp only [release_port] at hrp
        split at hrp
        · cases hrp
          simpa using (List.mem_erase_of_ne hne).mpr hq
        · cases hrp
      exact ih ps1 q hq1 (fun hc => hnot (List.mem_cons_of_mem _ hc))

/-- The port-allocation loop of `launch_process` never removes a
previously allocated port (the ports it releases on failure are only the
fresh ones of this very call, tracked by `acc`). -/
theorem alloc_ports_loop_alloc_mono (w : World) :
    ∀ names ps acc o ps2 ev, alloc_ports_loop w names ps acc = (o, ps2, ev) →
    ∀ q, q ∈ ps.alloc → q ∉ acc.map (fun x => x.2) → q ∈ ps2.alloc := by
  intro names
  induction names with
  | nil =>
    intro ps acc o ps2 ev h q hq _
    simp only [alloc_ports_loop] at h
    cases h
    exact hq
  | cons name rest ih =>
    intro ps acc o ps2 ev h q hq hfresh
    simp only [alloc_ports_loop] at h
    split at h
    · next port ps1 ev1 halloc =>
      rcases hr : alloc_ports_loop w rest ps1 (acc ++ [(name, port)]) with ⟨o2, ps3, ev3⟩
      rw [hr] at h
      dsimp only at h
      cases h
      obtain ⟨hp_fresh, hp_alloc⟩ := allocate_port_ok _ _ _ _ _ _ halloc
      refine ih ps1 (acc ++ [(name, port)]) _ _ _ hr q ?_ ?_
      · rw [hp_alloc]
        exact List.mem_cons_of_mem _ hq
      · simp only [List.map_append, List.mem_append, List.map_cons, List.map_nil,
          List.mem_singleton]
        rintro (hacc | hport)
        · exact hfresh hacc
        · exact hp_fresh (hport ▸ hq)
    · next m ps1 ev1 halloc =>
      split at h
      · next ps4 hrel =>
        cases h
        have hq1 : q ∈ ps1.alloc := allocate_port_alloc_mono _ _ _ _ _ _ halloc q hq
        have := release_ports_keep (acc.map (fun x => x.2)) ps1 q hq1 hfresh
        rw [hrel] at this
        exact this
      · next ps4 hrel =>
        cases h
        have hq1 : q ∈ ps1.alloc := allocate_port_alloc_mono _ _ _ _ _ _ halloc q hq
        have := release_ports_keep (acc.map (fun x => x.2)) ps1 q hq1 hfresh
        rw [hrel] at this
        exact this
    · next ps1 ev1 halloc =>
      cases h
      exact allocate_port_alloc_mono _ _ _ _ _ _ halloc q hq
    · next ps1 ev1 halloc =>
      cases h
      exact allocate_port_alloc_mono _ _ _ _ _ _ halloc q hq

/-- The `launch_process` never removes a previously allocated port, on any
path (including the spawn-failure path, which releases nothing). -/
theorem launch_process_alloc_mono (w : World) (ps : PortsSt) (spec : ProcessSpec)
    (o : Outcome RunningProcessEntry) (ps2 : PortsSt) (ev : List LogEvent)
    (h : launch_process w ps spec = (o, ps2, ev)) :
    ∀ q, q ∈ ps.alloc → q ∈ ps2.alloc := by
  intro q hq
  simp only [launch_process] at h
  split at h
  · next pa ps1 ev1 hloop =>
    split at h
    · cases h
      exact alloc_ports_loop_alloc_mono w _ _ _ _ _ _ hloop q hq (by simp)
    · cases h
      exact alloc_ports_loop_alloc_mono w _ _ _ _ _ _ hloop q hq (by simp)
  · next m ps1 ev1 hloop =>
    cases h
    exact alloc_ports_loop_alloc_mono w _ _ _ _ _ _ hloop q hq (by simp)
  · next ps1 ev1 hloop =>
    cases h
    exact alloc_ports_loop_alloc_mono w _ _ _ _ _ _ hloop q hq (by simp)
  · next ps1 ev1 hloop =>
    cases h
    exact alloc_ports_loop_alloc_mono w _ _ _ _ _ _ hloop q hq (by simp)

/-- The `ensure_launch` never removes an allocated port. -/
theorem ensure_launch_alloc_mono (w : World) (name : String) (ts : ProcessSpec)
    (pset : ProcessSet) (ps : PortsSt) (o : Outcome Unit) (pset2 : ProcessSet)
    (ps2 : PortsSt) (ev : List LogEvent)
    (h : ensure_launch w name ts pset ps = (o, pset2, ps2, ev)) :
    ∀ q, q ∈ ps.alloc → q ∈ ps2.alloc := by
  intro q hq
  simp only [ensure_launch] at h
  split at h
  · next entry ps1 ev1 hl =>
    cases h
    exact launch_process_alloc_mono w ps ts _ _ _ hl q hq
  · next m ps1 ev1 hl =>
    cases h
    exact launch_process_alloc_mono w ps ts _ _ _ hl q hq
  · next ps1 ev1 hl =>
    cases h
    exact launch_process_alloc_mono w ps ts _ _ _ hl q hq
  · next ps1 ev1 hl =>
    cases h
    exact launch_process_alloc_mono w ps ts _ _ _ hl q hq

/-- The `ensure_current` never removes an allocated port. -/
theorem ensure_current_alloc_mono (w : World) (name : String)
    (tspec : Option ProcessSpec) (pset : ProcessSet) (ps : PortsSt)
    (o : Outcome Unit) (pset2 : ProcessSet) (ps2 : PortsSt) (ev : List LogEvent)
    (h : ensure_current w name tspec pset ps = (o, pset2, ps2, ev)) :
    ∀ q, q ∈ ps.alloc → q ∈ ps2.alloc := by
  intro q hq
  simp only [ensure_current] at h
  split at h
  · cases h; exact hq
  · split at h
    · split at h
      · cases h; exact hq
      · exact ensure_launch_alloc_mono w _ _ _ _ _ _ _ _ h q hq
    · exact ensure_launch_alloc_mono w _ _ _ _ _ _ _ _ h q hq

/-- The whole upkeep loop never removes an allocated port. -/
theorem ensure_all_alloc_mono (w : World) (specs : List ProcessSpec) :
    ∀ pbn ps o pbn2 ps2 ev, ensure_all w specs pbn ps = (o, pbn2, ps2, ev) →
    ∀ q, q ∈ ps.alloc → q ∈ ps2.alloc := by
  intro pbn
  induction pbn with
  | nil =>
    intro ps o pbn2 ps2 ev h q hq
    simp only [ensure_all] at h
    cases h
    exact hq
  | cons pe rest ih =>
    intro ps o pbn2 ps2 ev h q hq
    obtain ⟨name, pset⟩ := pe
    simp only [ensure_all] at h
    split at h
    · next pset2 ps1 ev1 hcur =>
      rcases hr : ensure_all w specs rest ps1 with ⟨o2, rest2, ps3, ev3⟩
      rw [hr] at h
      dsimp only at h
      cases h
      exact ih ps1 _ _ _ _ hr q (ensure_current_alloc_mono w _ _ _ _ _ _ _ _ hcur q hq)
    · next m pset2 ps1 ev1 hcur =>
      cases h
      exact ensure_current_alloc_mono w _ _ _ _ _ _ _ _ hcur q hq
    · next pset2 ps1 ev1 hcur =>
      cases h
      exact ensure_current_alloc_mono w _ _ _ _ _ _ _ _ hcur q hq
    · next pset2 ps1 ev1 hcur =>
      cases h
      exact ensure_current_alloc_mono w _ _ _ _ _ _ _ _ hcur q hq

/-- One housekeeping pass never removes a port from the allocated set —
in particular the collect step removes `Exited` entries but releases
nothing. -/
theorem housekeeping_alloc_mono (w : World) (st : SyncedGlobalState) :
    ∀ q, q ∈ st.allocated_ports → q ∈ (housekeeping w st).state.allocated_ports := by
  intro q hq
  simp only [housekeeping]
  split
  · exact hq
  · split
    · next processed2 ev1 hcs =>
      split
      · exact hq
      · split
        · next pbn2 ps2 ev2 hens =>
          split
          · exact ensure_all_alloc_mono w _ _ _ _ _ _ _ hens q hq
          · next linfo hlb =>
            split
            all_goals exact ensure_all_alloc_mono w _ _ _ _ _ _ _ hens q hq
        · next m pbn2 ps2 ev2 hens =>
          exact ensure_all_alloc_mono w _ _ _ _ _ _ _ hens q hq
        · next pbn2 ps2 ev2 hens =>
          exact ensure_all_alloc_mono w _ _ _ _ _ _ _ hens q hq
        · next pbn2 ps2 ev2 hens =>
          exact ensure_all_alloc_mono w _ _ _ _ _ _ _ hens q hq
    · exact hq
    · exact hq
    · exact hq

/-- A set created by step 1 is an existing one or empty. -/
theorem ensure_process_sets_mem :
    ∀ procs pbn pr, pr ∈ ensure_process_sets procs pbn → pr ∈ pbn ∨ pr.2 = ([] : ProcessSet) := by
  intro procs
  induction procs with
  | nil => intro pbn pr h; exact Or.inl h
  | cons p rest ih =>
    intro pbn pr h
    simp only [ensure_process_sets] at h
    split at h
    · exact ih pbn pr h
    · rcases ih _ pr h with hmem | hnil
      · rcases List.mem_append.mp hmem with hl | hr
        · exact Or.inl hl
        · rcases List.mem_singleton.mp hr with rfl
          exact Or.inr rfl
      · exact Or.inr hnil

/-- On success, every port in the accumulated port map is allocated. -/
theorem alloc_ports_loop_ok_ports (w : World) :
    ∀ names ps acc pa ps2 ev, alloc_ports_loop w names ps acc = (.ok pa, ps2, ev) →
    (∀ x ∈ acc, x.2 ∈ ps.alloc) → ∀ x ∈ pa, x.2 ∈ ps2.alloc := by
  intro names
  induction names with
  | nil =>
    intro ps acc pa ps2 ev h hacc
    simp only [alloc_ports_loop] at h
    cases h
    exact hacc
  | cons name rest ih =>
    intro ps acc pa ps2 ev h hacc
    simp only [alloc_ports_loop] at h
    split at h
    · next port ps1 ev1 halloc =>
      rcases hr : alloc_ports_loop w rest ps1 (acc ++ [(name, port)]) with ⟨o2, ps3, ev3⟩
      rw [hr] at h
      dsimp only at h
      cases h
      obtain ⟨hfresh, halloc2⟩ := allocate_port_ok _ _ _ _ _ _ halloc
      refine ih ps1 (acc ++ [(name, port)]) _ _ _ hr ?_
      intro x hx
      rcases List.mem_append.mp hx with hxl | hxr
      · rw [halloc2]
        exact List.mem_cons_of_mem _ (hacc x hxl)
      · rcases List.mem_singleton.mp hxr with rfl
        rw [halloc2]
        exact List.mem_cons_self _ _
    · next m ps1 ev1 halloc =>
      split at h
      · cases h
      · cases h
    · cases h
    · cases h

/-- On success, every port of the launched entry is allocated. -/
theorem launch_process_ok_ports (w : World) (ps : PortsSt) (spec : ProcessSpec)
    (entry : RunningProcessEntry) (ps2 : PortsSt) (ev : List LogEvent)
    (h : launch_process w ps spec = (.ok entry, ps2, ev)) :
    ∀ x ∈ entry.port_allocations, x.2 ∈ ps2.alloc := by
  simp only [launch_process] at h
  split at h
  · next pa ps1 ev1 hloop =>
    split at h
    · cases h
    · cases h
      exact alloc_ports_loop_ok_ports w _ _ _ _ _ _ hloop (by simp)
  · cases h
  · cases h
  · cases h

/-- The `ensure_launch` keeps every surviving entry's ports allocated. -/
theorem ensure_launch_ports (w : World) (name : String) (ts : ProcessSpec)
    (pset : ProcessSet) (ps : PortsSt) (o : Outcome Unit) (pset2 : ProcessSet)
    (ps2 : PortsSt) (ev : List LogEvent)
    (h : ensure_launch w name ts pset ps = (o, pset2, ps2, ev))
    (hin : ∀ pe ∈ pset, ∀ x ∈ pe.2.port_allocations, x.2 ∈ ps.alloc) :
    ∀ pe ∈ pset2, ∀ x ∈ pe.2.port_allocations, x.2 ∈ ps2.alloc := by
  intro pe hpe x hx
  simp only [ensure_launch] at h
  split at h
  · next entry ps1 ev1 hl =>
    cases h
    rcases List.mem_append.mp hpe with hold | hnew
    · exact launch_process_alloc_mono w ps ts _ _ _ hl _ (hin pe hold x hx)
    · rcases List.mem_singleton.mp hnew with rfl
      exact launch_process_ok_ports w ps ts _ _ _ hl x hx
  · next m ps1 ev1 hl =>
    cases h
    exact launch_process_alloc_mono w ps ts _ _ _ hl _ (hin pe hpe x hx)
  · next ps1 ev1 hl =>
    cases h
    exact launch_process_alloc_mono w ps ts _ _ _ hl _ (hin pe hpe x hx)
  · next ps1 ev1 hl =>
    cases h
    exact launch_process_alloc_mono w ps ts _ _ _ hl _ (hin pe hpe x hx)

/-- The `ensure_current` keeps every surviving entry's ports allocated. -/
theorem ensure_current_ports (w : World) (name : String) (tspec : Option ProcessSpec)
    (pset : ProcessSet) (ps : PortsSt) (o : Outcome Unit) (pset2 : ProcessSet)
    (ps2 : PortsSt) (ev : List LogEvent)
    (h : ensure_current w name tspec pset ps = (o, pset2, ps2, ev))
    (hin : ∀ pe ∈ pset, ∀ x ∈ pe.2.port_allocations, x.2 ∈ ps.alloc) :
    ∀ pe ∈ pset2, ∀ x ∈ pe.2.port_allocations, x.2 ∈ ps2.alloc := by
  simp only [ensure_current] at h
  split at h
  · cases h; exact hin
  · split at h
    · split at h
      · cases h; exact hin
      · exact ensure_launch_ports w _ _ _ _ _ _ _ _ h hin
    · exact ensure_launch_ports w _ _ _ _ _ _ _ _ h hin

/-- The upkeep loop keeps every surviving entry's ports allocated. -/
theorem ensure_all_ports (w : World) (specs : List ProcessSpec) :
    ∀ pbn ps o pbn2 ps2 ev, ensure_all w specs pbn ps = (o, pbn2, ps2, ev) →
    (∀ pr ∈ pbn, ∀ pe ∈ pr.2, ∀ x ∈ pe.2.port_allocations, x.2 ∈ ps.alloc) →
    ∀ pr ∈ pbn2, ∀ pe ∈ pr.2, ∀ x ∈ pe.2.port_allocations, x.2 ∈ ps2.alloc := by
  intro pbn
  induction pbn with
  | nil =>
    intro ps o pbn2 ps2 ev h hin
    simp only [ensure_all] at h
    cases h
    exact hin
  | cons hd rest ih =>
    intro ps o pbn2 ps2 ev h hin
    obtain ⟨name, pset⟩ := hd
    simp only [ensure_all] at h
    split at h
    · next pset1 ps1 ev1 hcur =>
      rcases hr : ensure_all w specs rest ps1 with ⟨o2, rest2, ps3, ev3⟩
      rw [hr] at h
      dsimp only at h
      cases h
      intro pr hpr pe hpe x hx
      rcases List.mem_cons.mp hpr with rfl | htail
      · have hhd := ensure_current_ports w _ _ _ _ _ _ _ _ hcur
          (fun pe2 hpe2 => hin (name, pset) (List.mem_cons_self _ _) pe2 hpe2)
          pe hpe x hx
        exact ensure_all_alloc_mono w specs rest ps1 _ _ _ _ hr _ hhd
      · refine ih ps1 _ _ _ _ hr ?_ pr htail pe hpe x hx
        intro pr2 hpr2 pe2 hpe2 x2 hx2
        exact ensure_current_alloc_mono w _ _ _ _ _ _ _ _ hcur _
          (hin pr2 (List.mem_cons_of_mem _ hpr2) pe2 hpe2 x2 hx2)
    · next m pset1 ps1 ev1 hcur =>
      cases h
      intro pr hpr pe hpe x hx
      rcases List.mem_cons.mp hpr with rfl | htail
      · exact ensure_current_ports w _ _ _ _ _ _ _ _ hcur
          (fun pe2 hpe2 => hin (name, pset) (List.mem_cons_self _ _) pe2 hpe2) pe hpe x hx
      · exact ensure_current_alloc_mono w _ _ _ _ _ _ _ _ hcur _
          (hin pr (List.mem_cons_of_mem _ htail) pe hpe x hx)
    · next pset1 ps1 ev1 hcur =>
      cases h
      intro pr hpr pe hpe x hx
      rcases List.mem_cons.mp hpr with rfl | htail
      · exact ensure_current_ports w _ _ _ _ _ _ _ _ hcur
          (fun pe2 hpe2 => hin (name, pset) (List.mem_cons_self _ _) pe2 hpe2) pe hpe x hx
      · exact ensure_current_alloc_mono w _ _ _ _ _ _ _ _ hcur _
          (hin pr (List.mem_cons_of_mem _ htail) pe hpe x hx)
    · next pset1 ps1 ev1 hcur =>
      cases h
      intro pr hpr pe hpe x hx
      rcases List.mem_cons.mp hpr with rfl | htail
      · exact ensure_current_ports w _ _ _ _ _ _ _ _ hcur
          (fun pe2 hpe2 => hin (name, pset) (List.mem_cons_self _ _) pe2 hpe2) pe hpe x hx
      · exact ensure_current_alloc_mono w _ _ _ _ _ _ _ _ hcur _
          (hin pr (List.mem_cons_of_mem _ htail) pe hpe x hx)

/-- Entries after the connection-count update carry the same port maps. -/
theorem set_conn_counts_ports (linfo : List (Nat × LoopbackInfo)) (l : ProcessSet) :
    ∀ pe ∈ set_conn_counts linfo l, ∃ pe0 ∈ l,
      pe.2.port_allocations = pe0.2.port_allocations := by
  intro pe hpe
  rcases List.mem_map.mp hpe with ⟨pe0, hpe0, rfl⟩
  exact ⟨pe0, hpe0, rfl⟩

/-- Entries after the demote loop carry the same port maps. -/
theorem demote_loop_ports (w : World) :
    ∀ l o l2 ev, demote_loop w l = (o, l2, ev) →
    ∀ pe ∈ l2, ∃ pe0 ∈ l, pe.2.port_allocations = pe0.2.port_allocations := by
  intro l
  induction l with
  | nil =>
    intro o l2 ev h pe hpe
    simp only [demote_loop] at h
    cases h
    simp at hpe
  | cons hd rest ih =>
    intro o l2 ev h pe hpe
    obtain ⟨spec, entry⟩ := hd
    simp only [demote_loop] at h
    split at h
    · split at h
      · cases h
        exact ⟨pe, hpe, rfl⟩
      · next healthy _ =>
        rcases hr : demote_loop w rest with ⟨o2, rest2, ev2⟩
        rw [hr] at h
        dsimp only at h
        split at h
        · cases h
          rcases List.mem_cons.mp hpe with rfl | htail
          · exact ⟨(spec, entry), List.mem_cons_self _ _, rfl⟩
          · obtain ⟨pe0, hpe0, heq⟩ := ih _ _ _ hr pe htail
            exact ⟨pe0, List.mem_cons_of_mem _ hpe0, heq⟩
        · cases h
          rcases List.mem_cons.mp hpe with rfl | htail
          · exact ⟨(spec, entry), List.mem_cons_self _ _, rfl⟩
          · obtain ⟨pe0, hpe0, heq⟩ := ih _ _ _ hr pe htail
            exact ⟨pe0, List.mem_cons_of_mem _ hpe0, heq⟩
    · rcases hr : demote_loop w rest with ⟨o2, rest2, ev2⟩
      rw [hr] at h
      dsimp only at h
      cases h
      rcases List.mem_cons.mp hpe with rfl | htail
      · exact ⟨(spec, entry), List.mem_cons_self _ _, rfl⟩
      · obtain ⟨pe0, hpe0, heq⟩ := ih _ _ _ hr pe htail
        exact ⟨pe0, List.mem_cons_of_mem _ hpe0, heq⟩

/-- Entries after the start-up promotion carry the same port maps. -/
theorem promote_tail_ports (w : World) (l : ProcessSet) :
    ∀ o l2 ev, promote_tail w l = (o, l2, ev) →
    ∀ pe ∈ l2, ∃ pe0 ∈ l, pe.2.port_allocations = pe0.2.port_allocations := by
  intro o l2 ev h pe hpe
  simp only [promote_tail] at h
  split at h
  · cases h
    exact ⟨pe, hpe, rfl⟩
  · next spec entry hlast =>
    split at h
    · split at h
      · cases h
        exact ⟨pe, hpe, rfl⟩
      · cases h
        rcases List.mem_append.mp hpe with hdrop | hlastm
        · exact ⟨pe, List.dropLast_sublist l |>.mem hdrop, rfl⟩
        · rcases List.mem_singleton.mp hlastm with rfl
          exact ⟨(spec, entry), List.mem_of_mem_getLast? hlast, rfl⟩
      · cases h
        exact ⟨pe, hpe, rfl⟩
    · cases h
      exact ⟨pe, hpe, rfl⟩

/-- Entries after the sunset walk carry the same port maps. -/
theorem sunset_rev_ports :
    ∀ (l : ProcessSet) (flag : Bool), ∀ pe ∈ (sunset_rev flag l).1,
      ∃ pe0 ∈ l, pe.2.port_allocations = pe0.2.port_allocations := by
  intro l
  induction l with
  | nil => intro flag pe hpe; simp [sunset_rev] at hpe
  | cons hd rest ih =>
    intro flag pe hpe
    obtain ⟨spec, e⟩ := hd
    by_cases he : e.status = .Running
    · cases flag
      · rw [sunset_rev_cons_run_false spec e rest he] at hpe
        rcases List.mem_cons.mp hpe with rfl | htail
        · exact ⟨(spec, e), List.mem_cons_self _ _, rfl⟩
        · obtain ⟨pe0, hpe0, heq⟩ := ih true pe htail
          exact ⟨pe0, List.mem_cons_of_mem _ hpe0, heq⟩
      · rw [sunset_rev_cons_run_true spec e rest he] at hpe
        rcases List.mem_cons.mp hpe with rfl | htail
        · exact ⟨(spec, e), List.mem_cons_self _ _, rfl⟩
        · obtain ⟨pe0, hpe0, heq⟩ := ih true pe htail
          exact ⟨pe0, List.mem_cons_of_mem _ hpe0, heq⟩
    · rw [sunset_rev_cons_notrun flag spec e rest he] at hpe
      rcases List.mem_cons.mp hpe with rfl | htail
      · exact ⟨(spec, e), List.mem_cons_self _ _, rfl⟩
      · obtain ⟨pe0, hpe0, heq⟩ := ih flag pe htail
        exact ⟨pe0, List.mem_cons_of_mem _ hpe0, heq⟩

/-- Entries after the sunset step carry the same port maps. -/
theorem sunset_pass_ports (l : ProcessSet) :
    ∀ pe ∈ (sunset_pass l).1, ∃ pe0 ∈ l, pe.2.port_allocations = pe0.2.port_allocations := by
  intro pe hpe
  rcases hr : sunset_rev false l.reverse with ⟨r, ev, sig⟩
  simp only [sunset_pass, hr] at hpe
  have hmem : pe ∈ r := List.mem_reverse.mp hpe
  have := sunset_rev_ports l.reverse false pe (by rw [hr]; exact hmem)
  obtain ⟨pe0, hpe0, heq⟩ := this
  exact ⟨pe0, List.mem_reverse.mp hpe0, heq⟩

/-- Entries after the reap loop carry the same port maps. -/
theorem reap_loop_ports (w : World) :
    ∀ l o l2 ev, reap_loop w l = (o, l2, ev) →
    ∀ pe ∈ l2, ∃ pe0 ∈ l, pe.2.port_allocations = pe0.2.port_allocations := by
  intro l
  induction l with
  | nil =>
    intro o l2 ev h pe hpe
    simp only [reap_loop] at h
    cases h
    simp at hpe
  | cons hd rest ih =>
    intro o l2 ev h pe hpe
    obtain ⟨spec, entry⟩ := hd
    simp only [reap_loop] at h
    split at h
    · cases h
      exact ⟨pe, hpe, rfl⟩
    · rcases hr : reap_loop w rest with ⟨o2, rest2, ev2⟩
      rw [hr] at h
      dsimp only at h
      cases h
      rcases List.mem_cons.mp hpe with rfl | htail
      · exact ⟨(spec, entry), List.mem_cons_self _ _, rfl⟩
      · obtain ⟨pe0, hpe0, heq⟩ := ih _ _ _ hr pe htail
        exact ⟨pe0, List.mem_cons_of_mem _ hpe0, heq⟩
    · next code hcode =>
      split at h
      · cases h
        exact ⟨pe, hpe, rfl⟩
      · next t ht =>
        rcases hr : reap_loop w rest with ⟨o2, rest2, ev2⟩
        rw [hr] at h
        dsimp only at h
        cases h
        rcases List.mem_cons.mp hpe with rfl | htail
        · exact ⟨(spec, entry), List.mem_cons_self _ _, rfl⟩
        · obtain ⟨pe0, hpe0, heq⟩ := ih _ _ _ hr pe htail
          exact ⟨pe0, List.mem_cons_of_mem _ hpe0, heq⟩

/-- Entries after the whole per-set status pass carry the same port maps. -/
theorem update_statuses_set_ports (w : World) (linfo : List (Nat × LoopbackInfo))
    (pset : ProcessSet) (o : Outcome Unit) (s2 : ProcessSet) (ev : List LogEvent)
    (sig : List (String × Option Nat))
    (h : update_statuses_set w linfo pset = (o, s2, ev, sig)) :
    ∀ pe ∈ s2, ∃ pe0 ∈ pset, pe.2.port_allocations = pe0.2.port_allocations := by
  intro pe hpe
  simp only [update_statuses_set] at h
  split at h
  · next p2 ev2 hdem =>
    split at h
    · next p3 ev3 hpro =>
      rcases hsp : sunset_pass p3 with ⟨p4, ev4, sig4⟩
      rw [hsp] at h
      rcases hrp : reap_loop w p4 with ⟨o5, p5, ev5⟩
      rw [hrp] at h
      dsimp only at h
      simp only [Prod.mk.injEq] at h
      obtain ⟨_, hs2, _, _⟩ := h
      subst hs2
      obtain ⟨pe4, hpe4, heq4⟩ := reap_loop_ports w p4 _ _ _ hrp pe hpe
      have hsp4 : pe4 ∈ (sunset_pass p3).1 := by rw [hsp]; exact hpe4
      obtain ⟨pe3, hpe3, heq3⟩ := sunset_pass_ports p3 pe4 hsp4
      obtain ⟨pe2, hpe2, heq2⟩ := promote_tail_ports w p2 _ _ _ hpro pe3 hpe3
      obtain ⟨pe1, hpe1, heq1⟩ := demote_loop_ports w _ _ _ _ hdem pe2 hpe2
      obtain ⟨pe0, hpe0, heq0⟩ := set_conn_counts_ports linfo pset pe1 hpe1
      exact ⟨pe0, hpe0, by rw [heq4, heq3, heq2, heq1, heq0]⟩
    · next m p3 ev3 hpro =>
      simp only [Prod.mk.injEq] at h
      obtain ⟨_, hs2, _, _⟩ := h
      subst hs2
      obtain ⟨pe2, hpe2, heq2⟩ := promote_tail_ports w p2 _ _ _ hpro pe hpe
      obtain ⟨pe1, hpe1, heq1⟩ := demote_loop_ports w _ _ _ _ hdem pe2 hpe2
      obtain ⟨pe0, hpe0, heq0⟩ := set_conn_counts_ports linfo pset pe1 hpe1
      exact ⟨pe0, hpe0, by rw [heq2, heq1, heq0]⟩
    · next p3 ev3 hpro =>
      simp only [Prod.mk.injEq] at h
      obtain ⟨_, hs2, _, _⟩ := h
      subst hs2
      obtain ⟨pe2, hpe2, heq2⟩ := promote_tail_ports w p2 _ _ _ hpro pe hpe
      obtain ⟨pe1, hpe1, heq1⟩ := demote_loop_ports w _ _ _ _ hdem pe2 hpe2
      obtain ⟨pe0, hpe0, heq0⟩ := set_conn_counts_ports linfo pset pe1 hpe1
      exact ⟨pe0, hpe0, by rw [heq2, heq1, heq0]⟩
    · next p3 ev3 hpro =>
      simp only [Prod.mk.injEq] at h
      obtain ⟨_, hs2, _, _⟩ := h
      subst hs2
      obtain ⟨pe2, hpe2, heq2⟩ := promote_tail_ports w p2 _ _ _ hpro pe hpe
      obtain ⟨pe1, hpe1, heq1⟩ := demote_loop_ports w _ _ _ _ hdem pe2 hpe2
      obtain ⟨pe0, hpe0, heq0⟩ := set_conn_counts_ports linfo pset pe1 hpe1
      exact ⟨pe0, hpe0, by rw [heq2, heq1, heq0]⟩
  · next m p2 ev2 hdem =>
    simp only [Prod.mk.injEq] at h
    obtain ⟨_, hs2, _, _⟩ := h
    subst hs2
    obtain ⟨pe1, hpe1, heq1⟩ := demote_loop_ports w _ _ _ _ hdem pe hpe
    obtain ⟨pe0, hpe0, heq0⟩ := set_conn_counts_ports linfo pset pe1 hpe1
    exact ⟨pe0, hpe0, by rw [heq1, heq0]⟩
  · next p2 ev2 hdem =>
    simp only [Prod.mk.injEq] at h
    obtain ⟨_, hs2, _, _⟩ := h
    subst hs2
    obtain ⟨pe1, hpe1, heq1⟩ := demote_loop_ports w _ _ _ _ hdem pe hpe
    obtain ⟨pe0, hpe0, heq0⟩ := set_conn_counts_ports linfo pset pe1 hpe1
    exact ⟨pe0, hpe0, by rw [heq1, heq0]⟩
  · next p2 ev2 hdem =>
    simp only [Prod.mk.injEq] at h
    obtain ⟨_, hs2, _, _⟩ := h
    subst hs2
    obtain ⟨pe1, hpe1, heq1⟩ := demote_loop_ports w _ _ _ _ hdem pe hpe
    obtain ⟨pe0, hpe0, heq0⟩ := set_conn_counts_ports linfo pset pe1 hpe1
    exact ⟨pe0, hpe0, by rw [heq1, heq0]⟩

/-- Entries after the whole status phase carry the same port maps as some
entry of the same-named input set. -/
theorem update_statuses_all_ports (w : World) (linfo : List (Nat × LoopbackInfo)) :
    ∀ pbn o pbn2 ev sig, update_statuses_all w linfo pbn = (o, pbn2, ev, sig) →
    ∀ pr ∈ pbn2, ∀ pe ∈ pr.2, ∃ pr0 pe0, pr0 ∈ pbn ∧ pe0 ∈ pr0.2 ∧
      pe.2.port_allocations = pe0.2.port_allocations := by
  intro pbn
  induction pbn with
  | nil =>
    intro o pbn2 ev sig h pr hpr
    simp only [update_statuses_all] at h
    cases h
    simp at hpr
  | cons hd rest ih =>
    intro o pbn2 ev sig h pr hpr pe hpe
    obtain ⟨name, pset⟩ := hd
    simp only [update_statuses_all] at h
    split at h
    · next pset1 ev1 sig1 hset =>
      rcases hr : update_statuses_all w linfo rest with ⟨o2, rest2, ev2, sig2⟩
      rw [hr] at h
      dsimp only at h
      cases h
      rcases List.mem_cons.mp hpr with rfl | htail
      · obtain ⟨pe0, hpe0, heq⟩ := update_statuses_set_ports w linfo pset _ _ _ _ hset pe hpe
        exact ⟨(name, pset), pe0, List.mem_cons_self _ _, hpe0, heq⟩
      · obtain ⟨pr0, pe0, hpr0, hpe0, heq⟩ := ih _ _ _ _ hr pr htail pe hpe
        exact ⟨pr0, pe0, List.mem_cons_of_mem _ hpr0, hpe0, heq⟩
    · next m pset1 ev1 sig1 hset =>
      cases h
      rcases List.mem_cons.mp hpr with rfl | htail
      · obtain ⟨pe0, hpe0, heq⟩ := update_statuses_set_ports w linfo pset _ _ _ _ hset pe hpe
        exact ⟨(name, pset), pe0, List.mem_cons_self _ _, hpe0, heq⟩
      · exact ⟨pr, pe, List.mem_cons_of_mem _ htail, hpe, rfl⟩
    · next pset1 ev1 sig1 hset =>
      cases h
      rcases List.mem_cons.mp hpr with rfl | htail
      · obtain ⟨pe0, hpe0, heq⟩ := update_statuses_set_ports w linfo pset _ _ _ _ hset pe hpe
        exact ⟨(name, pset), pe0, List.mem_cons_self _ _, hpe0, heq⟩
      · exact ⟨pr, pe, List.mem_cons_of_mem _ htail, hpe, rfl⟩
    · next pset1 ev1 sig1 hset =>
      cases h
      rcases List.mem_cons.mp hpr with rfl | htail
      · obtain ⟨pe0, hpe0, heq⟩ := update_statuses_set_ports w linfo pset _ _ _ _ hset pe hpe
        exact ⟨(name, pset), pe0, List.mem_cons_self _ _, hpe0, heq⟩
      · exact ⟨pr, pe, List.mem_cons_of_mem _ htail, hpe, rfl⟩

/-- Collected entries come from the uncollected set. -/
theorem collect_all_mem (pbn : List (String × ProcessSet))
    (pr : String × ProcessSet) (hpr : pr ∈ collect_all pbn) :
    ∀ pe ∈ pr.2, ∃ pr0 ∈ pbn, pe ∈ pr0.2 := by
  intro pe hpe
  rcases List.mem_map.mp hpr with ⟨pr0, hpr0, rfl⟩
  exact ⟨pr0, hpr0, (List.mem_filter.mp hpe).1⟩

/-- Ports owned after the status phase — collected or not — were owned
before it, hence stay inside any fixed allocated set. -/
theorem statuses_collect_alloc (w : World) (linfo : List (Nat × LoopbackInfo))
    (pbn2 : List (String × ProcessSet)) (alloc : List Nat)
    (hin2 : ∀ pr ∈ pbn2, ∀ pe ∈ pr.2, ∀ x ∈ pe.2.port_allocations, x.2 ∈ alloc) :
    ∀ o pbn3 ev sig, update_statuses_all w linfo pbn2 = (o, pbn3, ev, sig) →
    (∀ pr ∈ pbn3, ∀ pe ∈ pr.2, ∀ x ∈ pe.2.port_allocations, x.2 ∈ alloc) ∧
    (∀ pr ∈ collect_all pbn3, ∀ pe ∈ pr.2, ∀ x ∈ pe.2.port_allocations, x.2 ∈ alloc) := by
  intro o pbn3 ev sig hsts
  have hbase : ∀ pr ∈ pbn3, ∀ pe ∈ pr.2, ∀ x ∈ pe.2.port_allocations, x.2 ∈ alloc := by
    intro pr hpr pe hpe x hx
    obtain ⟨pr1, pe1, hpr1, hpe1, heq⟩ :=
      update_statuses_all_ports w linfo _ _ _ _ _ hsts pr hpr pe hpe
    exact hin2 pr1 hpr1 pe1 hpe1 _ (heq ▸ hx)
  refine ⟨hbase, ?_⟩
  intro pr hpr pe hpe x hx
  obtain ⟨pr0, hpr0, hpe0⟩ := collect_all_mem _ pr hpr pe hpe
  exact hbase pr0 hpr0 pe hpe0 x hx

/-- One housekeeping pass keeps every port owned by a surviving entry in
the allocated set (the owned-implies-allocated half of the invariant). -/
theorem housekeeping_owned_ports (w : World) (st : SyncedGlobalState)
    (hin : ∀ pr ∈ st.processes_by_name, ∀ pe ∈ pr.2,
      ∀ x ∈ pe.2.port_allocations, x.2 ∈ st.allocated_ports) :
    ∀ pr ∈ (housekeeping w st).state.processes_by_name, ∀ pe ∈ pr.2,
      ∀ x ∈ pe.2.port_allocations, x.2 ∈ (housekeeping w st).state.allocated_ports := by
  have hin1 : ∀ pr ∈ ensure_process_sets st.target.processes st.processes_by_name,
      ∀ pe ∈ pr.2, ∀ x ∈ pe.2.port_allocations, x.2 ∈ st.allocated_ports := by
    intro pr hpr pe hpe x hx
    rcases ensure_process_sets_mem _ _ _ hpr with hmem | hnil
    · exact hin pr hmem pe hpe x hx
    · rw [hnil] at hpe
      simp at hpe
  simp only [housekeeping]
  split
  · exact hin1
  · split
    · next processed2 ev1 hcs =>
      split
      · exact hin1
      · split
        · next pbn2 ps2 ev2 hens =>
          have hin2 : ∀ pr ∈ pbn2, ∀ pe ∈ pr.2,
              ∀ x ∈ pe.2.port_allocations, x.2 ∈ ps2.alloc :=
            ensure_all_ports w _ _ _ _ _ _ _ hens hin1
          split
          · exact hin2
          · next linfo hlb =>
            split
            all_goals rename_i hsts
            all_goals intro pr hpr pe hpe x hx
            all_goals dsimp only at hpr ⊢
            all_goals
              first
              | exact (statuses_collect_alloc w linfo pbn2 ps2.alloc hin2
                  _ _ _ _ hsts).2 pr hpr pe hpe x hx
              | exact (statuses_collect_alloc w linfo pbn2 ps2.alloc hin2
                  _ _ _ _ hsts).1 pr hpr pe hpe x hx
        · next m pbn2 ps2 ev2 hens =>
          exact ensure_all_ports w _ _ _ _ _ _ _ hens hin1
        · next pbn2 ps2 ev2 hens =>
          exact ensure_all_ports w _ _ _ _ _ _ _ hens hin1
        · next pbn2 ps2 ev2 hens =>
          exact ensure_all_ports w _ _ _ _ _ _ _ hens hin1
    · exact hin1
    · exact hin1
    · exact hin1

/-- C1 as amended: housekeeping never removes a port from the allocated
set (the collect step removes `Exited` entries without releasing their
ports), and every port owned by a surviving entry stays allocated — so of
the claimed biconditional only the owned-implies-allocated direction is
maintained, and removing an `Exited` entry leaves its ports in the
allocated set with no owning entry. -/
theorem claim_C1 (w : World) (st : SyncedGlobalState) :
    (∀ q, q ∈ st.allocated_ports → q ∈ (housekeeping w st).state.allocated_ports) ∧
    ((∀ pr ∈ st.processes_by_name, ∀ pe ∈ pr.2,
        ∀ x ∈ pe.2.port_allocations, x.2 ∈ st.allocated_ports) →
      ∀ pr ∈ (housekeeping w st).state.processes_by_name, ∀ pe ∈ pr.2,
        ∀ x ∈ pe.2.port_allocations, x.2 ∈ (housekeeping w st).state.allocated_ports) :=
  ⟨housekeeping_alloc_mono w st, housekeeping_owned_ports w st⟩

/-- Fixture: a `Running` entry owning port 20000 whose child exits this
tick. -/
def c1Entry : RunningProcessEntry where
  status := .Running
  approx_start := 0
  approx_conn_count := 0
  pid := some 9
  name := "e"
  port_allocations := [("s", 20000)]

/-- Fixture: a state in which the invariant holds — port 20000 is
allocated and owned by the single entry. -/
def c1St : SyncedGlobalState where
  target_text := ""
  target := { processes := [], services := [] }
  processed_services := []
  processes_by_name := [("p", [(c2Spec, c1Entry)])]
  free_loopback_ports := [20001]
  allocated_ports := [20000]
  last_ipvs_state := none

/-- Fixture: a world in which the entry's child has exited with code 0 and
everything else is inert. -/
def c1World : World where
  getIpvs := .ok { services := [] }
  createService := fun _ => .ok ()
  testPort := fun _ => some true
  spawn := fun _ => .ok (some 42)
  entryName := fun n => n ++ "-0-42"
  now := 0
  rl := fun _ => false
  http := fun _ => .connectError
  tryWait := fun _ => .ok (some (some 0))
  epochNow := .ok 100
  setWeight := fun _ _ _ => .ok ()
  fuel := 10

/-- C1 counterexample: starting from a state where the biconditional
holds (port 20000 allocated and owned), the pass reaps the entry to
`Exited` and the collect step removes it, yet 20000 is still in the
allocated set while no entry owns it — the claimed invariant is violated
after a housekeeping pass. -/
theorem cex_C1 :
    20000 ∈ c1St.allocated_ports ∧
    (∃ pr ∈ c1St.processes_by_name, ∃ pe ∈ pr.2,
      ("s", 20000) ∈ pe.2.port_allocations) ∧
    (housekeeping c1World c1St).outcome = .ok () ∧
    (housekeeping c1World c1St).state.allocated_ports = [20000] ∧
    (housekeeping c1World c1St).state.processes_by_name = [("p", [])] := by
  decide

/-- Witness for C1 at the concrete input: both halves of the amended
claim applied to the exited-entry state — 20000 survives in the allocated
set, and the (vacuous, after collection) ownership inclusion holds. -/
theorem claim_C1_witness :
    20000 ∈ (housekeeping c1World c1St).state.allocated_ports ∧
    (∀ pr ∈ (housekeeping c1World c1St).state.processes_by_name, ∀ pe ∈ pr.2,
      ∀ x ∈ pe.2.port_allocations,
        x.2 ∈ (housekeeping c1World c1St).state.allocated_ports) :=
  ⟨(claim_C1 c1World c1St).1 20000 (by decide),
    (claim_C1 c1World c1St).2 (by decide)⟩

/-! ### C10 — the process-set map only grows -/

/-- Step 1 keeps every existing binding unchanged. -/
theorem ensure_process_sets_lookup :
    ∀ procs pbn (k : String) (s : ProcessSet), alookup pbn k = some s →
      alookup (ensure_process_sets procs pbn) k = some s := by
  intro procs
  induction procs with
  | nil => intro pbn k s h; exact h
  | cons p rest ih =>
    intro pbn k s h
    simp only [ensure_process_sets]
    split
    · exact ih pbn k s h
    · exact ih _ k s (alookup_append_some _ _ _ _ h)

/-- The upkeep loop leaves the key list unchanged. -/
theorem ensure_all_fst (w : World) (specs : List ProcessSpec) :
    ∀ pbn ps o pbn2 ps2 ev, ensure_all w specs pbn ps = (o, pbn2, ps2, ev) →
    pbn2.map Prod.fst = pbn.map Prod.fst := by
  intro pbn
  induction pbn with
  | nil =>
    intro ps o pbn2 ps2 ev h
    simp only [ensure_all] at h
    cases h
    rfl
  | cons hd rest ih =>
    intro ps o pbn2 ps2 ev h
    obtain ⟨name, pset⟩ := hd
    simp only [ensure_all] at h
    split at h
    · next pset1 ps1 ev1 hcur =>
      rcases hr : ensure_all w specs rest ps1 with ⟨o2, rest2, ps3, ev3⟩
      rw [hr] at h
      dsimp only at h
      cases h
      simp only [List.map_cons]
      rw [ih _ _ _ _ _ hr]
    · next m pset1 ps1 ev1 hcur =>
      cases h
      simp only [List.map_cons]
    · next pset1 ps1 ev1 hcur =>
      cases h
      simp only [List.map_cons]
    · next pset1 ps1 ev1 hcur =>
      cases h
      simp only [List.map_cons]

/-- The status phase leaves the key list unchanged. -/
theorem update_statuses_all_fst (w : World) (linfo : List (Nat × LoopbackInfo)) :
    ∀ pbn o pbn2 ev sig, update_statuses_all w linfo pbn = (o, pbn2, ev, sig) →
    pbn2.map Prod.fst = pbn.map Prod.fst := by
  intro pbn
  induction pbn with
  | nil =>
    intro o pbn2 ev sig h
    simp only [update_statuses_all] at h
    cases h
    rfl
  | cons hd rest ih =>
    intro o pbn2 ev sig h
    obtain ⟨name, pset⟩ := hd
    simp only [update_statuses_all] at h
    split at h
    · next pset1 ev1 sig1 hset =>
      rcases hr : update_statuses_all w linfo rest with ⟨o2, rest2, ev2, sig2⟩
      rw [hr] at h
      dsimp only at h
      cases h
      simp only [List.map_cons]
      rw [ih _ _ _ _ hr]
    · next m pset1 ev1 sig1 hset =>
      cases h
      simp only [List.map_cons]
    · next pset1 ev1 sig1 hset =>
      cases h
      simp only [List.map_cons]
    · next pset1 ev1 sig1 hset =>
      cases h
      simp only [List.map_cons]

/-- The collect step leaves the key list unchanged. -/
theorem collect_all_fst (pbn : List (String × ProcessSet)) :
    (collect_all pbn).map Prod.fst = pbn.map Prod.fst := by
  induction pbn with
  | nil => rfl
  | cons hd rest ih =>
    simp only [collect_all, List.map_cons] at ih ⊢
    rw [ih]

/-- Key presence transfers along an equal key list. -/
theorem alookup_isSome_of_fst_eq {α : Type} (l1 l2 : List (String × α)) (k : String)
    (hfst : l2.map Prod.fst = l1.map Prod.fst) (h : (alookup l1 k).isSome) :
    (alookup l2 k).isSome := by
  rw [alookup_isSome_iff] at h ⊢
  rw [hfst]
  exact h

/-- On a completed upkeep loop, a name with no spec in the target keeps
its process set unchanged. -/
theorem ensure_all_lookup_nolaunch (w : World) (specs : List ProcessSpec) :
    ∀ pbn ps o pbn2 ps2 ev, ensure_all w specs pbn ps = (o, pbn2, ps2, ev) →
    o = .ok () →
    ∀ (k : String) (s : ProcessSet), specs.find? (fun sp => sp.name == k) = none →
    alookup pbn k = some s → alookup pbn2 k = some s := by
  intro pbn
  induction pbn with
  | nil =>
    intro ps o pbn2 ps2 ev h _ k s _ hlk
    simp only [alookup] at hlk
    simp at hlk
  | cons hd rest ih =>
    intro ps o pbn2 ps2 ev h hok k s hfind hlk
    obtain ⟨name, pset⟩ := hd
    simp only [ensure_all] at h
    split at h
    · next pset1 ps1 ev1 hcur =>
      rcases hr : ensure_all w specs rest ps1 with ⟨o2, rest2, ps3, ev3⟩
      rw [hr] at h
      dsimp only at h
      cases h
      rw [alookup_cons] at hlk ⊢
      by_cases hk : name == k
      · rw [if_pos hk] at hlk ⊢
        have hkeq : name = k := eq_of_beq hk
        subst hkeq
        rw [hfind] at hcur
        simp only [ensure_current] at hcur
        have : pset1 = pset := by
          have := congrArg (fun t => t.2.1) hcur
          simpa using this.symm
        rw [this]
        exact hlk
      · rw [if_neg hk] at hlk ⊢
        exact ih ps1 _ _ _ _ hr hok k s hfind hlk
    · next m pset1 ps1 ev1 hcur =>
      cases h
      cases hok
    · next pset1 ps1 ev1 hcur =>
      cases h
      cases hok
    · next pset1 ps1 ev1 hcur =>
      cases h
      cases hok

/-- On a completed status phase, each set's result is the per-set pass of
its input set. -/
theorem update_statuses_all_lookup (w : World) (linfo : List (Nat × LoopbackInfo)) :
    ∀ pbn o pbn2 ev sig, update_statuses_all w linfo pbn = (o, pbn2, ev, sig) →
    o = .ok () →
    ∀ (k : String) (s : ProcessSet), alookup pbn k = some s →
    ∃ s1 ev1 sig1, update_statuses_set w linfo s = (.ok (), s1, ev1, sig1) ∧
      alookup pbn2 k = some s1 := by
  intro pbn
  induction pbn with
  | nil =>
    intro o pbn2 ev sig h _ k s hlk
    simp only [alookup] at hlk
    simp at hlk
  | cons hd rest ih =>
    intro o pbn2 ev sig h hok k s hlk
    obtain ⟨name, pset⟩ := hd
    simp only [update_statuses_all] at h
    split at h
    · next pset1 ev1 sig1 hset =>
      rcases hr : update_statuses_all w linfo rest with ⟨o2, rest2, ev2, sig2⟩
      rw [hr] at h
      dsimp only at h
      cases h
      rw [alookup_cons] at hlk
      by_cases hk : name == k
      · rw [if_pos hk] at hlk
        cases hlk
        refine ⟨pset1, ev1, sig1, hset, ?_⟩
        rw [alookup_cons, if_pos hk]
      · rw [if_neg hk] at hlk
        obtain ⟨s1, ev3, sig3, hset1, hlk1⟩ := ih _ _ _ _ hr hok k s hlk
        refine ⟨s1, ev3, sig3, hset1, ?_⟩
        rw [alookup_cons, if_neg hk]
        exact hlk1
    · next m pset1 ev1 sig1 hset =>
      cases h
      cases hok
    · next pset1 ev1 sig1 hset =>
      cases h
      cases hok
    · next pset1 ev1 sig1 hset =>
      cases h
      cases hok

/-- Lookups through the collect step. -/
theorem collect_all_lookup (pbn : List (String × ProcessSet)) (k : String) :
    alookup (collect_all pbn) k = (alookup pbn k).map collect_exited := by
  induction pbn with
  | nil => rfl
  | cons hd rest ih =>
    obtain ⟨name, pset⟩ := hd
    simp only [collect_all, List.map_cons]
    rw [alookup_cons, alookup_cons]
    by_cases hk : name == k
    · rw [if_pos hk, if_pos hk]
      rfl
    · rw [if_neg hk, if_neg hk]
      exact ih

/-- Housekeeping never loses a process-set key. -/
theorem housekeeping_keys_grow (w : World) (st : SyncedGlobalState) :
    ∀ k, (alookup st.processes_by_name k).isSome →
      (alookup (housekeeping w st).state.processes_by_name k).isSome := by
  intro k hk
  have hk1 : (alookup (ensure_process_sets st.target.processes st.processes_by_name) k).isSome := by
    rcases Option.isSome_iff_exists.mp hk with ⟨s, hs⟩
    rw [ensure_process_sets_lookup _ _ _ _ hs]
    rfl
  simp only [housekeeping]
  split
  · exact hk1
  · split
    · next processed2 ev1 hcs =>
      split
      · exact hk1
      · split
        · next pbn2 ps2 ev2 hens =>
          have hk2 : (alookup pbn2 k).isSome :=
            alookup_isSome_of_fst_eq _ _ k (ensure_all_fst w _ _ _ _ _ _ _ hens) hk1
          split
          · exact hk2
          · next linfo hlb =>
            split
            all_goals rename_i hsts
            all_goals
              first
              | exact alookup_isSome_of_fst_eq _ _ k
                  ((collect_all_fst _).trans
                    (update_statuses_all_fst w linfo _ _ _ _ _ hsts)) hk2
              | exact alookup_isSome_of_fst_eq _ _ k
                  (update_statuses_all_fst w linfo _ _ _ _ _ hsts) hk2
        · next m pbn2 ps2 ev2 hens =>
          exact alookup_isSome_of_fst_eq _ _ k (ensure_all_fst w _ _ _ _ _ _ _ hens) hk1
        · next pbn2 ps2 ev2 hens =>
          exact alookup_isSome_of_fst_eq _ _ k (ensure_all_fst w _ _ _ _ _ _ _ hens) hk1
        · next pbn2 ps2 ev2 hens =>
          exact alookup_isSome_of_fst_eq _ _ k (ensure_all_fst w _ _ _ _ _ _ _ hens) hk1
    · exact hk1
    · exact hk1
    · exact hk1

/-- On a completed pass, a name that has disappeared from the target is
still fully processed: its set goes through the per-set status pass and
the collect step, and nothing is launched for it. -/
theorem housekeeping_stale_name (w : World) (st : SyncedGlobalState)
    (hok : (housekeeping w st).outcome = .ok ()) :
    ∀ (k : String) (s : ProcessSet), (∀ p ∈ st.target.processes, p.name ≠ k) →
    alookup st.processes_by_name k = some s →
    ∃ ipvs linfo s1 ev1 sig1, w.getIpvs = .ok ipvs ∧
      build_loopback_info (loopbackEntries ipvs.services) [] = some linfo ∧
      update_statuses_set w linfo s = (.ok (), s1, ev1, sig1) ∧
      alookup (housekeeping w st).state.processes_by_name k
        = some (collect_exited s1) := by
  intro k s hname hlk
  have hfind : st.target.processes.find? (fun sp => sp.name == k) = none := by
    rw [List.find?_eq_none]
    intro x hx
    simp only [beq_iff_eq]
    exact hname x hx
  have hlk1 := ensure_process_sets_lookup st.target.processes st.processes_by_name k s hlk
  revert hok
  simp only [housekeeping]
  split
  · intro hok
    simp at hok
  · next ipvs hipvs =>
    split
    · next processed2 ev1 hcs =>
      split
      · intro hok
        simp at hok
      · split
        · next pbn2 ps2 ev2 hens =>
          split
          · intro hok
            simp at hok
          · next linfo hlb =>
            split
            all_goals rename_i hsts
            all_goals intro hok
            all_goals dsimp only at hok ⊢
            all_goals try (simp at hok)
            all_goals
              (have h2 := ensure_all_lookup_nolaunch w st.target.processes _ _ _ _ _ _
                hens rfl k s hfind hlk1
               obtain ⟨s1, ev4, sig4, hset, hlk2⟩ :=
                 update_statuses_all_lookup w linfo _ _ _ _ _ hsts rfl k s h2
               refine ⟨ipvs, linfo, s1, ev4, sig4, hipvs, hlb, hset, ?_⟩
               rw [collect_all_lookup, hlk2]
               rfl)
        · next m pbn2 ps2 ev2 hens =>
          intro hok
          simp at hok
        · next pbn2 ps2 ev2 hens =>
          intro hok
          simp at hok
        · next pbn2 ps2 ev2 hens =>
          intro hok
          simp at hok
    · next m processed2 ev1 hcs =>
      intro hok
      simp at hok
    · next processed2 ev1 hcs =>
      intro hok
      simp at hok
    · next processed2 ev1 hcs =>
      intro hok
      simp at hok

/-- C10: the map of ProcessSets only grows — housekeeping never removes a
key — and once a name disappears from the target its surviving set is
still health-checked, sunset, reaped (the per-set status pass) and
collected on later ticks, while no new version is launched for it (the
set reaching the status pass is exactly the stored one). -/
theorem claim_C10 (w : World) (st : SyncedGlobalState) :
    (∀ k, (alookup st.processes_by_name k).isSome →
      (alookup (housekeeping w st).state.processes_by_name k).isSome) ∧
    ((housekeeping w st).outcome = .ok () →
      ∀ (k : String) (s : ProcessSet), (∀ p ∈ st.target.processes, p.name ≠ k) →
      alookup st.processes_by_name k = some s →
      ∃ ipvs linfo s1 ev1 sig1, w.getIpvs = .ok ipvs ∧
        build_loopback_info (loopbackEntries ipvs.services) [] = some linfo ∧
        update_statuses_set w linfo s = (.ok (), s1, ev1, sig1) ∧
        alookup (housekeeping w st).state.processes_by_name k
          = some (collect_exited s1)) :=
  ⟨housekeeping_keys_grow w st, fun hok => housekeeping_stale_name w st hok⟩

/-- Witness for C10 at the concrete input: the name `p` is absent from
the (empty) target, yet after the pass its key is still present and its
set is the status-passed, collected one. -/
theorem claim_C10_witness :
    (alookup (housekeeping c1World c1St).state.processes_by_name "p").isSome ∧
    ∃ ipvs linfo s1 ev1 sig1, c1World.getIpvs = .ok ipvs ∧
      build_loopback_info (loopbackEntries ipvs.services) [] = some linfo ∧
      update_statuses_set c1World linfo [(c2Spec, c1Entry)] = (.ok (), s1, ev1, sig1) ∧
      alookup (housekeeping c1World c1St).state.processes_by_name "p"
        = some (collect_exited s1) :=
  ⟨(claim_C10 c1World c1St).1 "p" (by decide),
    (claim_C10 c1World c1St).2 (by decide) "p" [(c2Spec, c1Entry)]
      (by intro p hp; simp [c1St] at hp) (by decide)⟩

end Hjz
